import Mathlib

/-!
Verification of the Stonehenge game implementation: the data model
(`Leyline`, `StonehengeState`), the move application and capture logic
(`change_leyline`, `change_letter`, `make_move`), the board geometry
(`generate_hoz`, `generate_right_diag_lines`, `generate_left_diag_lines`),
the terminal/winner queries (`is_over`, `is_winner`), the heuristic
(`rough_outcome`, `check_good_move`, `list_states`), and the two search
strategies (`recursive_minimax`/`recursive_helper` and
`iterative_minimax`/`iterative_helper`).

All definitions are shallow embeddings of the corresponding Python code.
Python's machine integers are modelled by `Nat`/`Int` (no overflow occurs:
all quantities are small counts), its strings by `String`, and its
fallible operations (`list.remove` raising `ValueError`) by `Option`.
-/

namespace Stonehenge

/-- A leyline: its `value` is either the number of the leyline (an `Int`
in Python, modelled as `Sum.inl`) or the number, as a string, of the
player who captured it (`Sum.inr`); `letters` is its list of cells, where
a claimed cell has been replaced by the claiming player's tag. -/
structure Leyline where
  value : Sum Nat String
  letters : List String
deriving DecidableEq, Repr, Inhabited

/-- A state of a game of Stonehenge (`StonehengeState`). -/
structure State where
  p1_turn : Bool
  b_length : Nat
  p1_score : Nat
  p2_score : Nat
  h_lines : List Leyline
  r_lines : List Leyline
  l_lines : List Leyline
  possible_moves : List String
deriving DecidableEq, Repr, Inhabited

/-- The class-level alphabet `ALPHA` shared by `Stonehenge` and
`StonehengeState`. -/
def ALPHA : List String :=
  ["A", "B", "C", "D", "E", "F", "G", "H", "I", "J", "K", "L",
   "M", "N", "O", "P", "Q", "R", "S", "T", "U", "V", "W",
   "X", "Y", "Z"]

/-- Source `int(0.5*(b_length**2 + 5*b_length))`: the total number of cells of a
board of length `b` (exact: `b^2 + 5b` is always even). -/
def numCells (b : Nat) : Nat := (b ^ 2 + 5 * b) / 2

/-- Source `math.ceil(3 * (b_length + 1) / 2)`: the number of captured leylines
needed to win. -/
def winThreshold (b : Nat) : Nat := (3 * (b + 1) + 1) / 2

/-- Source `math.ceil(0.5 * len(ley.letters))`: the number of cells a player
must hold to capture a leyline. -/
def capThreshold (len : Nat) : Nat := (len + 1) / 2

/-- A cell tag: the string `"1"` or `"2"` standing for a claimed cell. -/
def isTag (x : String) : Bool := x == "1" || x == "2"

/-- Source `Stonehenge.is_over(state)`: the game is over once either player's
score reaches the win threshold. -/
def is_over (s : State) : Bool :=
  winThreshold s.b_length ≤ s.p1_score || winThreshold s.b_length ≤ s.p2_score

/-- Source `Stonehenge.is_winner('p1')` on a game whose current state is `s`. -/
def is_winner_p1 (s : State) : Bool := winThreshold s.b_length ≤ s.p1_score

/-- Source `Stonehenge.is_winner('p2')` on a game whose current state is `s`. -/
def is_winner_p2 (s : State) : Bool := winThreshold s.b_length ≤ s.p2_score

/-- Source `StonehengeState.get_possible_moves`: returns (a copy of) the stored
move list. -/
def get_possible_moves (s : State) : List String := s.possible_moves

/-- Source `StonehengeState.change_leyline`: if the mover count in `ley` reaches
`ceil(len/2)` and the leyline is still unclaimed (its value is an `int`),
claim it and bump the corresponding score.  The two `if`s run in
sequence, `'1'` first, exactly as in the source. -/
def change_leyline (ley : Leyline) (p1 p2 : Nat) : Leyline × Nat × Nat :=
  let thr := capThreshold ley.letters.length
  let step1 : Leyline × Nat :=
    if thr ≤ ley.letters.count "1" ∧ ley.value.isLeft then
      ({ ley with value := Sum.inr "1" }, p1 + 1)
    else (ley, p1)
  let ley1 := step1.1
  let p1' := step1.2
  let step2 : Leyline × Nat :=
    if thr ≤ ley1.letters.count "2" ∧ ley1.value.isLeft then
      ({ ley1 with value := Sum.inr "2" }, p2 + 1)
    else (ley1, p2)
  (step2.1, p1', step2.2)

/-- Source `letters.insert(i, player); letters.pop(i + 1)` at the first index
holding `move`: replace the first occurrence of `move` by `tag`. -/
def replaceFirst (tag : String) : List String → String → List String
  | [], _ => []
  | x :: xs, m => if x = m then tag :: xs else x :: replaceFirst tag xs m

/-- Source `StonehengeState.change_letter`: walk the leyline list, find the
first leyline containing `move`, replace that letter by the mover's tag,
re-check that leyline for capture, and stop (the `for`/`else`/`break`
double-loop in the source).  Score mutation is threaded explicitly. -/
def change_letter (p1turn : Bool) (move : String) :
    List Leyline → Nat → Nat → List Leyline × Nat × Nat
  | [], p1, p2 => ([], p1, p2)
  | ley :: rest, p1, p2 =>
    if move ∈ ley.letters then
      let tag := if p1turn then "1" else "2"
      let ley' := { ley with letters := replaceFirst tag ley.letters move }
      let r := change_leyline ley' p1 p2
      (r.1 :: rest, r.2)
    else
      let r := change_letter p1turn move rest p1 p2
      (ley :: r.1, r.2)

/-- Source `StonehengeState.make_move`: deep-copy the three leyline families,
claim the cell in each family, remove the move from the move list, flip
the turn, and force the move list empty when a score reaches the win
threshold.  The deep copies are identities in this pure model.  Python's
`possible_moves.remove(move)` raises `ValueError` when `move` is absent;
this total version uses `List.erase` (a no-op in that error case) and
`make_move_checked` models the failure. -/
def make_move (s : State) (move : String) : State :=
  let rh := change_letter s.p1_turn move s.h_lines s.p1_score s.p2_score
  let rr := change_letter s.p1_turn move s.r_lines rh.2.1 rh.2.2
  let rl := change_letter s.p1_turn move s.l_lines rr.2.1 rr.2.2
  let p1' := rl.2.1
  let p2' := rl.2.2
  let moves' := s.possible_moves.erase move
  let thr := winThreshold s.b_length
  { p1_turn := !s.p1_turn
    b_length := s.b_length
    p1_score := p1'
    p2_score := p2'
    h_lines := rh.1
    r_lines := rr.1
    l_lines := rl.1
    possible_moves := if thr ≤ p1' ∨ thr ≤ p2' then [] else moves' }

/-- Source `make_move` including its fail-fast behaviour: Python's
`list.remove` raises `ValueError` when the move is not in
`possible_moves`, modelled by `none`. -/
def make_move_checked (s : State) (move : String) : Option State :=
  if move ∈ s.possible_moves then some (make_move s move) else none

/-! ## Board geometry (`Stonehenge.__init__` collaborators) -/

/-- Letter `k` of leyline `j` of `hl` (Python `hl[j].letters[k]`; the
default is never reached on the valid inputs used here). -/
def letterAt (hl : List Leyline) (j k : Nat) : String :=
  ((hl.getD j default).letters).getD k "?"

/-- Length of the letter list of leyline `j` of `hl`. -/
def lettersLen (hl : List Leyline) (j : Nat) : Nat :=
  (hl.getD j default).letters.length

/-- The loop of `Stonehenge.generate_hoz`: `k` iterations remain,
`i` is the 1-based row index, `a` the remaining alphabet. -/
def generate_hoz_go (n : Nat) : Nat → Nat → List String → List Leyline
  | 0, _, _ => []
  | k + 1, i, a =>
    let cnt := if i ≤ n then i + 1 else n
    ⟨Sum.inl i, a.take cnt⟩ :: generate_hoz_go n k (i + 1) (a.drop cnt)

/-- Source `Stonehenge.generate_hoz`: rows `1..n` have `i+1` cells, the last row
has `n`, cells drawn in order from `ALPHA`. -/
def generate_hoz (n : Nat) : List Leyline := generate_hoz_go n (n + 1) 1 ALPHA

/-- Source `Stonehenge.generate_right_diag_lines`: diagonal `i = 1` takes column
0 of rows `0..n-1`; diagonal `i ≥ 2` takes column `i-1` of rows
`i-2..n-1`; afterwards diagonals `i ≥ 2` (index `≥ 1`) each get one cell
of the last row appended. -/
def generate_right_diag_lines (n : Nat) (hl : List Leyline) : List Leyline :=
  let base := (List.range (n + 1)).map (fun i0 =>
    if i0 = 0 then
      Leyline.mk (Sum.inl 1) ((List.range n).map (fun j => letterAt hl j 0))
    else
      Leyline.mk (Sum.inl (i0 + 1))
        ((List.range' (i0 - 1) (n - (i0 - 1))).map (fun j => letterAt hl j i0)))
  base.enum.map (fun ip =>
    if ip.1 = 0 then ip.2
    else { ip.2 with letters := ip.2.letters ++ [letterAt hl n (ip.1 - 1)] })

/-- Source `Stonehenge.generate_left_diag_lines`: diagonal `i` takes the cells
`hl[j].letters[len-i]` for `j` from `start..n-1` (where `start = 0` for
`i ≤ 2` and `i-2` otherwise), reversed; afterwards diagonals with index
`≥ 1` each get one cell of the last row prepended (in reverse order). -/
def generate_left_diag_lines (n : Nat) (hl : List Leyline) : List Leyline :=
  let base := (List.range (n + 1)).map (fun i0 =>
    let i := i0 + 1
    let st := if i = 1 then 0 else i - 2
    Leyline.mk (Sum.inl i)
      (((List.range' st (n - st)).map
          (fun j => letterAt hl j (lettersLen hl j - i))).reverse))
  base.enum.map (fun ip =>
    if ip.1 = 0 then ip.2
    else { ip.2 with letters := letterAt hl n (n - ip.1) :: ip.2.letters })

/-- Source `Stonehenge.__init__` followed by `StonehengeState.__init__`: the
initial state of a game of board length `b` (the constructor sets
`possible_moves = ALPHA[:num]`). -/
def mkInit (isP1 : Bool) (b : Nat) : State :=
  let hoz := generate_hoz b
  { p1_turn := isP1
    b_length := b
    p1_score := 0
    p2_score := 0
    h_lines := hoz
    r_lines := generate_right_diag_lines b hoz
    l_lines := generate_left_diag_lines b hoz
    possible_moves := ALPHA.take (numCells b) }

/-! ## Heuristic lookahead (`rough_outcome` and helpers) -/

/-- Source `StonehengeState.give_copy` / `check_good_move`: apply `move` to a
deep copy of `s` and test whether either player has reached the win
threshold in the resulting state. -/
def check_good_move (s : State) (move : String) : Bool :=
  let ns := make_move s move
  winThreshold ns.b_length ≤ ns.p1_score || winThreshold ns.b_length ≤ ns.p2_score

/-- Source `StonehengeState.list_states`: all states one move away from `s`. -/
def list_states (s : State) : List State :=
  s.possible_moves.map (make_move s)

/-- Source `StonehengeState.rough_outcome`, translated literally: the first
branch tests `self.p1_score` twice (never `p2_score`), and the third
branch is `all(... for s in ...)` over a generator of *lists*, so Python
evaluates each list's truthiness, i.e. its non-emptiness. -/
def rough_outcome (s : State) : Int :=
  if winThreshold s.b_length ≤ s.p1_score ∨ winThreshold s.b_length ≤ s.p1_score then
    -1
  else if s.possible_moves.any (check_good_move s) then 1
  else if (list_states s).all
      (fun c => !(c.possible_moves.map (check_good_move c)).isEmpty) then -1
  else 0

/-! ## Search strategies (`strategy.py`) -/

/-- The score the helpers give a finished game: `-1` when some player
has won, `0` otherwise (the `is_winner('p2') or is_winner('p1')` test,
in source order). -/
def leafScore (s : State) : Int :=
  if is_winner_p2 s || is_winner_p1 s then -1 else 0

/-- Python's `max` over a list of ints (`None` on the empty list, where
Python raises `ValueError`). -/
def maxListO : List Int → Option Int
  | [] => none
  | x :: xs => some (xs.foldl max x)

/-- Source `recursive_helper`, with explicit fuel so that the definition is
structural (the Python recursion terminates because `possible_moves`
strictly shrinks; `recursive_helper` below instantiates the fuel with a
proven-sufficient amount).  The fuel-exhausted value `0` is never
reached at sufficient fuel. -/
def recursive_helper_fuel : Nat → State → Int
  | 0, _ => 0
  | n + 1, s =>
    if is_over s then leafScore s
    else
      (maxListO ((get_possible_moves s).map
        (fun m => -recursive_helper_fuel n (make_move s m)))).getD 0

/-- Source `recursive_helper`: the negamax value of `s` from the mover's
perspective. -/
def recursive_helper (s : State) : Int :=
  recursive_helper_fuel (s.possible_moves.length + 1) s

/-- The index-based selection shared by both minimax entry points:
`moves[moves_scores.index(max(moves_scores))]`. -/
def selectByScores (moves : List String) (scores : List Int) : Option String :=
  (maxListO scores).bind (fun mx => moves[scores.indexOf mx]?)

/-- Source `recursive_minimax`: score each legal move by the negated helper
value of the resulting position and return the first move attaining the
maximum (`None` models the `ValueError` of `max([])` on a terminal
input). -/
def recursive_minimax (s : State) : Option String :=
  let moves := get_possible_moves s
  let scores := moves.map (fun m => -recursive_helper (make_move s m))
  selectByScores moves scores

/-! ### The iterative stack machine (`GameTree` / `iterative_helper`)

The Python machine mutates a heap of `GameTree` objects through
references held in a work stack.  It is modelled by a single tree of
nodes (the heap reachable from `gt`) together with a stack of *paths*
into that tree (the references), mutation being functional replacement
at a path. -/

/-- A `GameTree` node: the wrapped game (its current state), an optional
computed score, and the discovered children. -/
structure GTree where
  game : State
  score : Option Int
  children : List GTree
deriving Inhabited

/-- The node a path points to. -/
def nodeAt : GTree → List Nat → Option GTree
  | t, [] => some t
  | t, i :: p =>
    match t.children[i]? with
    | some c => nodeAt c p
    | none => none

/-- Replace the subtree a path points to (identity on invalid paths,
which never arise in runs). -/
def replaceAt : GTree → List Nat → GTree → GTree
  | _, [], s => s
  | t, i :: p, s =>
    match t.children[i]? with
    | some c => { t with children := t.children.set i (replaceAt c p s) }
    | none => t

/-- A machine configuration: the tree rooted at the Python variable `gt`
and the work stack `s` of references (head = top of stack). -/
abbrev Mach := GTree × List (List Nat)

/-- The stack segment holding the references of children `0..j-1` of the
node at `p`, topmost (= head) the child last appended by the Python
`for` loop. -/
def childPaths (p : List Nat) (j : Nat) : List (List Nat) :=
  (List.range j).reverse.map (fun i => p ++ [i])

/-- The list comprehension `[-1*g.score for g in children]` builds the
raw score list first; a `None` score is a `TypeError` crash, modelled by
`none`. -/
def scoresOf : List GTree → Option (List Int)
  | [] => some []
  | c :: cs =>
    match c.score with
    | none => none
    | some v => (scoresOf cs).map (fun vs => v :: vs)

/-- One iteration of the `while` body of `iterative_helper`.  `none`
models a crash: an empty stack (`s[len(s)-1]` out of range), a child
without a score in the `max` (a `TypeError`), or `max` over no children
(a `ValueError`); none of these occur on well-formed games. -/
def step (m : Mach) : Option Mach :=
  match m.2 with
  | [] => none
  | p :: rest =>
    match nodeAt m.1 p with
    | none => none
    | some n =>
      if is_over n.game then
        some (replaceAt m.1 p { n with score := some (leafScore n.game) }, rest)
      else if n.children.isEmpty then
        let moves := get_possible_moves n.game
        let cs := moves.map (fun mv => GTree.mk (make_move n.game mv) none [])
        some (replaceAt m.1 p { n with children := cs },
              childPaths p moves.length ++ p :: p :: rest)
      else
        match scoresOf n.children with
        | none => none
        | some scs =>
          match maxListO (scs.map (fun x => -x)) with
          | none => none
          | some v => some (replaceAt m.1 p { n with score := some v }, rest)

/-- Iterate `step` a fixed number of times. -/
def stepN : Nat → Mach → Option Mach
  | 0, m => some m
  | k + 1, m => (step m).bind (stepN k)

/-- The `while gt.score is None` loop: check the root's score, then run
one iteration; `fuel` bounds the number of iterations (the Python loop
terminates on well-formed games, as proved below). -/
def runMach : Nat → Mach → Option Int
  | fuel, m =>
    match m.1.score with
    | some v => some v
    | none =>
      match fuel with
      | 0 => none
      | f + 1 => (step m).bind (runMach f)

/-- Source `iterative_helper(game)` run for at most `fuel` loop iterations:
push a fresh root node for the game and loop until the root has a
score. -/
def iterative_helper_fuel (fuel : Nat) (s : State) : Option Int :=
  runMach fuel (GTree.mk s none [], [[]])

/-- The loop of `iterative_minimax` building `moves_scores`: one
negated helper value per move, `none` if any helper run fails. -/
def mapO {α β : Type} (F : α → Option β) : List α → Option (List β)
  | [] => some []
  | x :: xs =>
    match F x with
    | none => none
    | some y => (mapO F xs).map (fun ys => y :: ys)

/-- Source `iterative_minimax`, with the same fuel discipline: score each legal
move with the iterative helper and select exactly as
`recursive_minimax` does. -/
def iterative_minimax_fuel (fuel : Nat) (s : State) : Option String :=
  let moves := get_possible_moves s
  (mapO (fun m => (iterative_helper_fuel fuel (make_move s m)).map
      (fun x => -x)) moves).bind
    (fun scores => selectByScores moves scores)

/-- The pointwise relation `change_letter` establishes between the input
and output leyline lists. -/
def clRel (old new : Leyline) : Prop :=
  new.letters.length = old.letters.length ∧
  (∀ t, old.value = Sum.inr t → new.value = Sum.inr t) ∧
  (new.value = old.value ∨ (old.value.isLeft = true ∧
    (new.value = Sum.inr "1" ∨ new.value = Sum.inr "2")))

/-! ## Reachable states and their invariants -/

/-- The still-unclaimed cell letters of a leyline family, in order. -/
def unclaimedOf : List Leyline → List String
  | [] => []
  | l :: L => l.letters.filter (fun x => !isTag x) ++ unclaimedOf L

/-- Total number of letter slots in a leyline family. -/
def lettersTotal : List Leyline → Nat
  | [] => 0
  | l :: L => l.letters.length + lettersTotal L

/-- Indicator: `1` when the leyline is owned by player `t`, else `0`. -/
def cVal (t : String) (l : Leyline) : Nat := if l.value = Sum.inr t then 1 else 0

/-- The number of leylines of a family captured by player `t`. -/
def capturedCount (t : String) : List Leyline → Nat
  | [] => 0
  | l :: L => cVal t l + capturedCount t L

/-- The number of claimed cells recorded in a leyline family (the
horizontal family holds each board cell exactly once). -/
def claimedCells : List Leyline → Nat
  | [] => 0
  | l :: L => l.letters.countP isTag + claimedCells L

/-! ### The state invariant maintained by play -/

/-- Invariants of every state arising in a game: terminal states have no
moves; for live states the unclaimed letters of the horizontal family
are exactly `possible_moves` in order; moves are distinct non-tags; an
unclaimed leyline never already holds a capturing count; each family's
unclaimed letters are distinct and legal; leyline values are a line
number or a player tag; the scores count the captured leylines; each
family has `b_length + 1` leylines, none with an empty letter list; and
the horizontal family holds one letter slot per board cell. -/
structure Inv (s : State) : Prop where
  over_moves : is_over s = true → s.possible_moves = []
  moves_eq : is_over s = false → unclaimedOf s.h_lines = s.possible_moves
  moves_nodup : s.possible_moves.Nodup
  moves_no_tag : ∀ x ∈ s.possible_moves, isTag x = false
  counts_lt : ∀ L ∈ [s.h_lines, s.r_lines, s.l_lines], ∀ ley ∈ L,
    ley.value.isLeft = true →
      ley.letters.count "1" < capThreshold ley.letters.length ∧
      ley.letters.count "2" < capThreshold ley.letters.length
  mem_moves : is_over s = false → ∀ L ∈ [s.h_lines, s.r_lines, s.l_lines],
    ∀ x ∈ unclaimedOf L, x ∈ s.possible_moves
  fam_nodup : ∀ L ∈ [s.h_lines, s.r_lines, s.l_lines], (unclaimedOf L).Nodup
  val_cases : ∀ L ∈ [s.h_lines, s.r_lines, s.l_lines], ∀ ley ∈ L,
    ley.value.isLeft = true ∨ ley.value = Sum.inr "1" ∨ ley.value = Sum.inr "2"
  score1 : s.p1_score = capturedCount "1" s.h_lines + capturedCount "1" s.r_lines +
    capturedCount "1" s.l_lines
  score2 : s.p2_score = capturedCount "2" s.h_lines + capturedCount "2" s.r_lines +
    capturedCount "2" s.l_lines
  lens : s.h_lines.length = s.b_length + 1 ∧ s.r_lines.length = s.b_length + 1 ∧
    s.l_lines.length = s.b_length + 1
  ley_ne : ∀ L ∈ [s.h_lines, s.r_lines, s.l_lines], ∀ ley ∈ L, ley.letters ≠ []
  hsum : lettersTotal s.h_lines = numCells s.b_length

/-- The states reachable by actual play: an initial board of a length
the implementation supports (`1..5`; larger boards exhaust the 26-letter
alphabet during geometry generation and `__str__` only renders these),
or a legal move applied to a reachable state. -/
inductive Reachable : State → Prop
  | init (p : Bool) (b : Nat) (hb1 : 1 ≤ b) (hb5 : b ≤ 5) : Reachable (mkInit p b)
  | step (s : State) (m : String) (hs : Reachable s)
      (hm : m ∈ s.possible_moves) : Reachable (make_move s m)

/-- Every reachable position has a well-founded game tree: a terminal
node, or a live node whose every child does. -/
inductive WFt : State → Prop
  | over (s : State) (h : is_over s = true) : WFt s
  | expand (s : State) (hno : is_over s = false) (hne : s.possible_moves ≠ [])
      (hc : ∀ m ∈ s.possible_moves, WFt (make_move s m)) : WFt s

/-! ## Claim C8: the frame property of `make_move`

Python's `make_move` is observably pure because it `deepcopy`s the three
leyline families before mutating anything.  To state this aliasing
property, the mutable `Leyline` objects are given an explicit heap (a
list indexed by references); a state holds references instead of
leylines, `deepcopy` allocates fresh cells at the end of the heap, and
`change_letter` writes through references.  The frame theorem then says:
`make_move` never writes any heap cell that existed before the call (so
the receiver, including every one of its leylines, is untouched), and
the returned state's references are all fresh — it shares no leyline
object with the receiver. -/

/-- A heap of `Leyline` objects; a reference is an index. -/
abbrev Heap := List Leyline

/-- A `StonehengeState` holding references to heap-allocated leylines. -/
structure HState where
  p1_turn : Bool
  b_length : Nat
  p1_score : Nat
  p2_score : Nat
  h_refs : List Nat
  r_refs : List Nat
  l_refs : List Nat
  possible_moves : List String

/-- Dereference (the default is never hit on valid references). -/
def heapGet (h : Heap) (r : Nat) : Leyline := h.getD r default

/-- Source `copy.deepcopy` of a leyline list: allocate fresh copies at the end
of the heap and return their references. -/
def allocCopies (h : Heap) (refs : List Nat) : Heap × List Nat :=
  (h ++ refs.map (heapGet h), List.range' h.length refs.length)

/-- Source `change_letter` acting through references: find the first referenced
leyline containing the move, overwrite that heap cell with the updated
leyline, and stop. -/
def change_letterH (pt : Bool) (mv : String) :
    Heap → List Nat → Nat → Nat → Heap × Nat × Nat
  | h, [], p1, p2 => (h, p1, p2)
  | h, r :: rs, p1, p2 =>
    let ley := heapGet h r
    if mv ∈ ley.letters then
      let tag := if pt then "1" else "2"
      let res := change_leyline { ley with letters := replaceFirst tag ley.letters mv } p1 p2
      (h.set r res.1, res.2)
    else change_letterH pt mv h rs p1 p2

/-- Source `make_move` on the heap model: deep-copy the three families (in
source order `h`, `l`, `r`), then claim the cell in each family (in
source order `h`, `r`, `l`) through the *fresh* references, and build
the new state from the fresh references.  The receiver `st` is only
read. -/
def make_moveH (h : Heap) (st : HState) (mv : String) : Heap × HState :=
  let a1 := allocCopies h st.h_refs
  let a2 := allocCopies a1.1 st.l_refs
  let a3 := allocCopies a2.1 st.r_refs
  let c1 := change_letterH st.p1_turn mv a3.1 a1.2 st.p1_score st.p2_score
  let c2 := change_letterH st.p1_turn mv c1.1 a3.2 c1.2.1 c1.2.2
  let c3 := change_letterH st.p1_turn mv c2.1 a2.2 c2.2.1 c2.2.2
  let p1' := c3.2.1
  let p2' := c3.2.2
  let moves' := st.possible_moves.erase mv
  let thr := winThreshold st.b_length
  (c3.1,
   { p1_turn := !st.p1_turn
     b_length := st.b_length
     p1_score := p1'
     p2_score := p2'
     h_refs := a1.2
     r_refs := a3.2
     l_refs := a2.2
     possible_moves := if thr ≤ p1' ∨ thr ≤ p2' then [] else moves' })

/-- The heap produced by `Stonehenge.__init__`: the three generated
families laid out consecutively. -/
def mkInitH (isP1 : Bool) (b : Nat) : Heap × HState :=
  let hoz := generate_hoz b
  let r := generate_right_diag_lines b hoz
  let l := generate_left_diag_lines b hoz
  (hoz ++ r ++ l,
   { p1_turn := isP1
     b_length := b
     p1_score := 0
     p2_score := 0
     h_refs := List.range' 0 hoz.length
     r_refs := List.range' hoz.length r.length
     l_refs := List.range' (hoz.length + r.length) l.length
     possible_moves := ALPHA.take (numCells b) })

/-! ## Theorems -/

/-! ## Basic lemmas about `max`, selection, and `make_move` -/

theorem le_foldl_max (xs : List Int) (a : Int) : a ≤ xs.foldl max a := by
  induction xs generalizing a with
  | nil => simp
  | cons x xs ih => exact le_trans (le_max_left a x) (ih (max a x))

theorem mem_le_foldl_max (xs : List Int) (a x : Int) (hx : x ∈ xs) :
    x ≤ xs.foldl max a := by
  induction xs generalizing a with
  | nil => cases hx
  | cons y ys ih =>
    rcases List.mem_cons.mp hx with h | h
    · subst h; exact le_trans (le_max_right a x) (le_foldl_max ys (max a x))
    · exact ih (max a y) h

theorem foldl_max_mem (xs : List Int) (a : Int) :
    xs.foldl max a = a ∨ xs.foldl max a ∈ xs := by
  induction xs generalizing a with
  | nil => exact Or.inl rfl
  | cons x xs ih =>
    rcases ih (max a x) with h | h
    · rcases max_choice a x with h' | h'
      · exact Or.inl (by rw [List.foldl_cons, h, h'])
      · exact Or.inr (by rw [List.foldl_cons, h, h']; exact List.mem_cons_self x xs)
    · exact Or.inr (List.mem_cons_of_mem x h)

theorem maxListO_of_ne_nil (l : List Int) (h : l ≠ []) : ∃ v, maxListO l = some v := by
  cases l with
  | nil => exact absurd rfl h
  | cons x xs => exact ⟨xs.foldl max x, rfl⟩

theorem maxListO_spec (l : List Int) (v : Int) (h : maxListO l = some v) :
    v ∈ l ∧ ∀ x ∈ l, x ≤ v := by
  cases l with
  | nil => cases h
  | cons x xs =>
    have hv : v = xs.foldl max x := by
      simpa [maxListO] using h.symm
    subst hv
    constructor
    · rcases foldl_max_mem xs x with h' | h'
      · rw [h']; exact List.mem_cons_self x xs
      · exact List.mem_cons_of_mem x h'
    · intro y hy
      rcases List.mem_cons.mp hy with h' | h'
      · subst h'; exact le_foldl_max xs y
      · exact mem_le_foldl_max xs x y h'

theorem getElem?_ne_of_lt_indexOf {α : Type} [DecidableEq α] :
    ∀ (l : List α) (a : α) (j : Nat), j < l.indexOf a → l[j]? ≠ some a := by
  intro l
  induction l with
  | nil => intro a j h; simp [List.indexOf] at h
  | cons b t ih =>
    intro a j h
    by_cases hb : b = a
    · rw [List.indexOf_cons_eq t hb] at h; omega
    · rw [List.indexOf_cons_ne t hb] at h
      cases j with
      | zero => simpa using hb
      | succ j => simpa using ih a j (Nat.lt_of_succ_lt_succ h)

theorem selectByScores_spec (moves : List String) (scores : List Int) (v : Int)
    (hlen : scores.length = moves.length) (hmax : maxListO scores = some v) :
    ∃ i, i < moves.length ∧ selectByScores moves scores = moves[i]? ∧
      scores[i]? = some v ∧ ∀ j, j < i → scores[j]? ≠ some v := by
  obtain ⟨hvmem, -⟩ := maxListO_spec scores v hmax
  refine ⟨scores.indexOf v, ?_, ?_, ?_, ?_⟩
  · rw [← hlen]; exact List.indexOf_lt_length.mpr hvmem
  · simp [selectByScores, hmax]
  · rw [List.getElem?_eq_getElem (List.indexOf_lt_length.mpr hvmem)]
    exact congrArg some (List.getElem_indexOf _)
  · exact fun j hj => getElem?_ne_of_lt_indexOf scores v j hj

/-! ### `change_leyline` and `change_letter` structure lemmas -/

theorem change_leyline_letters (ley : Leyline) (p1 p2 : Nat) :
    (change_leyline ley p1 p2).1.letters = ley.letters := by
  simp only [change_leyline]
  split <;> split <;> rfl

theorem change_leyline_value_cases (ley : Leyline) (p1 p2 : Nat) :
    (change_leyline ley p1 p2).1.value = ley.value ∨
      (ley.value.isLeft = true ∧ ((change_leyline ley p1 p2).1.value = Sum.inr "1" ∨
        (change_leyline ley p1 p2).1.value = Sum.inr "2")) := by
  simp only [change_leyline]
  split
  · next h => exact Or.inr ⟨h.2, Or.inl (by split <;> simp_all)⟩
  · split
    · next h => exact Or.inr ⟨h.2, Or.inr rfl⟩
    · exact Or.inl rfl

theorem change_leyline_claimed (ley : Leyline) (p1 p2 : Nat) (t : String)
    (h : ley.value = Sum.inr t) : change_leyline ley p1 p2 = (ley, p1, p2) := by
  simp [change_leyline, h]

theorem change_leyline_eq_of_cap1 (ley : Leyline) (p1 p2 : Nat)
    (hleft : ley.value.isLeft = true)
    (h1 : capThreshold ley.letters.length ≤ ley.letters.count "1") :
    change_leyline ley p1 p2 = ({ ley with value := Sum.inr "1" }, p1 + 1, p2) := by
  simp only [change_leyline]
  rw [if_pos (show capThreshold ley.letters.length ≤ ley.letters.count "1" ∧
    ley.value.isLeft = true from ⟨h1, hleft⟩)]
  simp

theorem change_leyline_eq_of_cap2 (ley : Leyline) (p1 p2 : Nat)
    (hleft : ley.value.isLeft = true)
    (h1 : ¬capThreshold ley.letters.length ≤ ley.letters.count "1")
    (h2 : capThreshold ley.letters.length ≤ ley.letters.count "2") :
    change_leyline ley p1 p2 = ({ ley with value := Sum.inr "2" }, p1, p2 + 1) := by
  simp only [change_leyline]
  rw [if_neg (show ¬(capThreshold ley.letters.length ≤ ley.letters.count "1" ∧
    ley.value.isLeft = true) from fun hc => h1 hc.1)]
  dsimp only
  rw [if_pos ⟨h2, hleft⟩]

theorem change_leyline_eq_of_nocap (ley : Leyline) (p1 p2 : Nat)
    (h1 : ¬capThreshold ley.letters.length ≤ ley.letters.count "1")
    (h2 : ¬capThreshold ley.letters.length ≤ ley.letters.count "2") :
    change_leyline ley p1 p2 = (ley, p1, p2) := by
  simp only [change_leyline]
  rw [if_neg (show ¬(capThreshold ley.letters.length ≤ ley.letters.count "1" ∧
    ley.value.isLeft = true) from fun hc => h1 hc.1)]
  dsimp only
  rw [if_neg (fun hc => h2 hc.1)]

theorem change_leyline_score_mono (ley : Leyline) (p1 p2 : Nat) :
    p1 ≤ (change_leyline ley p1 p2).2.1 ∧ p2 ≤ (change_leyline ley p1 p2).2.2 := by
  simp only [change_leyline]
  split <;> split <;> simp

theorem replaceFirst_length (tag : String) (xs : List String) (m : String) :
    (replaceFirst tag xs m).length = xs.length := by
  induction xs with
  | nil => rfl
  | cons x xs ih =>
    simp only [replaceFirst]
    split <;> simp [ih]

theorem change_letter_forall₂ (pt : Bool) (mv : String) :
    ∀ (L : List Leyline) (p1 p2 : Nat),
      List.Forall₂ clRel L (change_letter pt mv L p1 p2).1 := by
  intro L
  induction L with
  | nil => intro p1 p2; exact List.Forall₂.nil
  | cons ley rest ih =>
    intro p1 p2
    simp only [change_letter]
    split
    · refine List.Forall₂.cons ?_ (List.forall₂_same.mpr ?_)
      · constructor
        · rw [change_leyline_letters]
          exact replaceFirst_length _ _ _
        · constructor
          · intro t ht
            have := change_leyline_claimed
              { ley with letters := replaceFirst (if pt then "1" else "2") ley.letters mv }
              p1 p2 t ht
            rw [this]
            exact ht
          · rcases change_leyline_value_cases
              { ley with letters := replaceFirst (if pt then "1" else "2") ley.letters mv }
              p1 p2 with h | h
            · exact Or.inl h
            · exact Or.inr h
      · intro x _
        exact ⟨rfl, fun t ht => ht, Or.inl rfl⟩
    · exact List.Forall₂.cons ⟨rfl, fun t ht => ht, Or.inl rfl⟩ (ih p1 p2)

theorem forall₂_getElem? {α β : Type} {R : α → β → Prop} :
    ∀ {L : List α} {L' : List β}, List.Forall₂ R L L' →
      ∀ (i : Nat) (a : α) (b : β), L[i]? = some a → L'[i]? = some b → R a b := by
  intro L L' h
  induction h with
  | nil => intro i a b h1; cases i <;> cases h1
  | cons hr _ ih =>
    intro i a b h1 h2
    cases i with
    | zero =>
      simp only [List.getElem?_cons_zero, Option.some.injEq] at h1 h2
      subst h1; subst h2; exact hr
    | succ i =>
      simp only [List.getElem?_cons_succ] at h1 h2
      exact ih i a b h1 h2

theorem change_letter_length (pt : Bool) (mv : String) (L : List Leyline) (p1 p2 : Nat) :
    (change_letter pt mv L p1 p2).1.length = L.length :=
  ((change_letter_forall₂ pt mv L p1 p2).length_eq).symm

theorem change_letter_score_mono (pt : Bool) (mv : String) :
    ∀ (L : List Leyline) (p1 p2 : Nat),
      p1 ≤ (change_letter pt mv L p1 p2).2.1 ∧ p2 ≤ (change_letter pt mv L p1 p2).2.2 := by
  intro L
  induction L with
  | nil => intro p1 p2; exact ⟨le_refl _, le_refl _⟩
  | cons ley rest ih =>
    intro p1 p2
    simp only [change_letter]
    split
    · exact change_leyline_score_mono _ p1 p2
    · exact ih p1 p2

/-! ### `make_move` structure lemmas -/

theorem make_move_b_length (s : State) (m : String) :
    (make_move s m).b_length = s.b_length := rfl

theorem make_move_p1_turn (s : State) (m : String) :
    (make_move s m).p1_turn = !s.p1_turn := rfl

theorem make_move_score_mono (s : State) (m : String) :
    s.p1_score ≤ (make_move s m).p1_score ∧ s.p2_score ≤ (make_move s m).p2_score := by
  simp only [make_move]
  obtain ⟨h1, h2⟩ := change_letter_score_mono s.p1_turn m s.h_lines s.p1_score s.p2_score
  obtain ⟨h3, h4⟩ := change_letter_score_mono s.p1_turn m s.r_lines _ _
  obtain ⟨h5, h6⟩ := change_letter_score_mono s.p1_turn m s.l_lines _ _
  exact ⟨le_trans h1 (le_trans h3 h5), le_trans h2 (le_trans h4 h6)⟩

theorem make_move_moves_cases (s : State) (m : String) :
    (make_move s m).possible_moves = [] ∨
      (make_move s m).possible_moves = s.possible_moves.erase m := by
  simp only [make_move]
  split
  · exact Or.inl rfl
  · exact Or.inr rfl

theorem make_move_moves_of_over (s : State) (m : String)
    (h : is_over (make_move s m) = true) : (make_move s m).possible_moves = [] := by
  have hb := make_move_b_length s m
  simp only [is_over, Bool.or_eq_true, decide_eq_true_eq, hb] at h
  simp only [make_move] at h ⊢
  split
  · rfl
  · next hcond => exact absurd h hcond

theorem make_move_moves_of_not_over (s : State) (m : String)
    (h : is_over (make_move s m) = false) :
    (make_move s m).possible_moves = s.possible_moves.erase m := by
  have hb := make_move_b_length s m
  simp only [is_over, hb, Bool.or_eq_false_iff, decide_eq_false_iff_not] at h
  simp only [make_move] at h ⊢
  split
  · next hcond => exact absurd hcond (not_or.mpr ⟨h.1, h.2⟩)
  · rfl

theorem make_move_length_lt (s : State) (m : String) (h : m ∈ s.possible_moves) :
    (make_move s m).possible_moves.length < s.possible_moves.length := by
  have hpos : 0 < s.possible_moves.length := List.length_pos.mpr (List.ne_nil_of_mem h)
  rcases make_move_moves_cases s m with hcase | hcase
  · rw [hcase]; exact hpos
  · rw [hcase, List.length_erase_of_mem h]; omega

/-! ### `recursive_helper`: fuel irrelevance and the unfolding law -/

theorem recursive_helper_fuel_congr :
    ∀ (k : Nat) (s : State) (k' : Nat), s.possible_moves.length < k →
      s.possible_moves.length < k' →
      recursive_helper_fuel k s = recursive_helper_fuel k' s := by
  intro k
  induction k with
  | zero => intro s k' h; omega
  | succ k ih =>
    intro s k' hk hk'
    cases k' with
    | zero => omega
    | succ k' =>
      simp only [recursive_helper_fuel]
      have hmap : (get_possible_moves s).map
          (fun m => -recursive_helper_fuel k (make_move s m)) =
          (get_possible_moves s).map
            (fun m => -recursive_helper_fuel k' (make_move s m)) := by
        apply List.map_congr_left
        intro m hm
        have hlt := make_move_length_lt s m hm
        have h1 : (make_move s m).possible_moves.length < k := by omega
        have h2 : (make_move s m).possible_moves.length < k' := by omega
        rw [ih (make_move s m) k' h1 h2]
      rw [hmap]

theorem recursive_helper_eq_fuel (s : State) (k : Nat)
    (h : s.possible_moves.length < k) :
    recursive_helper s = recursive_helper_fuel k s :=
  recursive_helper_fuel_congr (s.possible_moves.length + 1) s k (by omega) h

theorem recursive_helper_unfold (s : State) :
    recursive_helper s =
      if is_over s then leafScore s
      else (maxListO (s.possible_moves.map
        (fun m => -recursive_helper (make_move s m)))).getD 0 := by
  show recursive_helper_fuel (s.possible_moves.length + 1) s = _
  simp only [recursive_helper_fuel, get_possible_moves]
  have hmap : s.possible_moves.map
      (fun m => -recursive_helper_fuel s.possible_moves.length (make_move s m)) =
      s.possible_moves.map (fun m => -recursive_helper (make_move s m)) := by
    apply List.map_congr_left
    intro m hm
    have hlt := make_move_length_lt s m hm
    rw [recursive_helper_eq_fuel (make_move s m) s.possible_moves.length hlt]
  rw [hmap]

/-! ## Claim C2: `recursive_minimax` implements negamax -/

/-- C2: `recursive_helper` implements negamax: a terminal state is worth
`-1` to the mover when the game has a winner and `0` otherwise; a
non-terminal state is worth the maximum over the legal moves of `-1`
times the value of the resulting state; and `recursive_minimax` returns
the first legal move, in `get_possible_moves()` order, attaining the
maximal negated child value. -/
theorem claim2_negamax (s : State) :
    (is_over s = true →
      ((is_winner_p1 s || is_winner_p2 s) = true → recursive_helper s = -1) ∧
      ((is_winner_p1 s || is_winner_p2 s) = false → recursive_helper s = 0)) ∧
    (is_over s = false → s.possible_moves ≠ [] →
      (∀ m ∈ s.possible_moves,
        -recursive_helper (make_move s m) ≤ recursive_helper s) ∧
      (∃ m ∈ s.possible_moves,
        -recursive_helper (make_move s m) = recursive_helper s) ∧
      (∃ i, i < s.possible_moves.length ∧
        recursive_minimax s = s.possible_moves[i]? ∧
        (s.possible_moves[i]?).map (fun m => -recursive_helper (make_move s m)) =
          some (recursive_helper s) ∧
        ∀ j, j < i →
          (s.possible_moves[j]?).map (fun m => -recursive_helper (make_move s m)) ≠
            some (recursive_helper s))) := by
  constructor
  · intro hover
    rw [recursive_helper_unfold, if_pos hover]
    constructor
    · intro hw
      simp only [leafScore]
      rw [if_pos (by cases hp1 : is_winner_p1 s <;> cases hp2 : is_winner_p2 s <;>
        simp_all)]
    · intro hw
      simp only [leafScore]
      rw [if_neg (by cases hp1 : is_winner_p1 s <;> cases hp2 : is_winner_p2 s <;>
        simp_all)]
  · intro hover hne
    set scores := s.possible_moves.map (fun m => -recursive_helper (make_move s m))
      with hscores
    have hsne : scores ≠ [] := by
      simp [hscores, hne]
    obtain ⟨v, hv⟩ := maxListO_of_ne_nil scores hsne
    have hrv : recursive_helper s = v := by
      rw [recursive_helper_unfold, if_neg (by simp [hover]), ← hscores, hv]
      rfl
    obtain ⟨hvmem, hvmax⟩ := maxListO_spec scores v hv
    refine ⟨?_, ?_, ?_⟩
    · intro m hm
      rw [hrv]
      exact hvmax _ (List.mem_map_of_mem _ hm)
    · obtain ⟨m, hm, hmv⟩ := List.mem_map.mp hvmem
      exact ⟨m, hm, by rw [hrv, hmv]⟩
    · obtain ⟨i, hi, hsel, hsi, hbefore⟩ := selectByScores_spec s.possible_moves
        scores v (by simp [hscores]) hv
      refine ⟨i, hi, ?_, ?_, ?_⟩
      · exact hsel
      · rw [hrv, ← hsi, hscores, List.getElem?_map]
      · intro j hj
        rw [hrv]
        have := hbefore j hj
        rw [hscores, List.getElem?_map] at this
        exact this

/-- Witness for C2 at the initial board of length 1 (non-terminal, three
legal moves). -/
theorem claim2_negamax_witness :
    (∀ m ∈ (mkInit true 1).possible_moves,
      -recursive_helper (make_move (mkInit true 1) m) ≤
        recursive_helper (mkInit true 1)) ∧
    (∃ m ∈ (mkInit true 1).possible_moves,
      -recursive_helper (make_move (mkInit true 1) m) =
        recursive_helper (mkInit true 1)) ∧
    (∃ i, i < (mkInit true 1).possible_moves.length ∧
      recursive_minimax (mkInit true 1) = (mkInit true 1).possible_moves[i]? ∧
      ((mkInit true 1).possible_moves[i]?).map
        (fun m => -recursive_helper (make_move (mkInit true 1) m)) =
        some (recursive_helper (mkInit true 1)) ∧
      ∀ j, j < i →
        ((mkInit true 1).possible_moves[j]?).map
          (fun m => -recursive_helper (make_move (mkInit true 1) m)) ≠
          some (recursive_helper (mkInit true 1))) :=
  (claim2_negamax (mkInit true 1)).2 (by decide) (by decide)

/-! ## Claim C3: the leyline capture rule -/

/-- C3: for an unclaimed leyline, `change_leyline` gives it to player 1
exactly when player 1's count of owned cells reaches `ceil(len/2)`
(compared with `>=`), to player 2 exactly when player 2's count reaches
the threshold and player 1's does not (the `'1'` branch runs first), and
a claimed leyline is never reconsidered; concretely, on the board of
length 1, after player 1 claims `'A'` in the size-2 horizontal leyline
`['A','B']` that leyline is captured by player 1, `p1_score` becomes 1,
and with that score the game is not yet over (win threshold 3). -/
theorem claim3_capture_rule :
    (∀ (ley : Leyline) (p1 p2 k : Nat), ley.value = Sum.inl k →
      ((change_leyline ley p1 p2).1.value = Sum.inr "1" ↔
        capThreshold ley.letters.length ≤ ley.letters.count "1") ∧
      ((change_leyline ley p1 p2).1.value = Sum.inr "2" ↔
        (ley.letters.count "1" < capThreshold ley.letters.length ∧
          capThreshold ley.letters.length ≤ ley.letters.count "2")) ∧
      ((change_leyline ley p1 p2).2.1 =
        if capThreshold ley.letters.length ≤ ley.letters.count "1" then p1 + 1
        else p1)) ∧
    (∀ (ley : Leyline) (p1 p2 : Nat) (t : String), ley.value = Sum.inr t →
      change_leyline ley p1 p2 = (ley, p1, p2)) ∧
    (mkInit true 1).h_lines.map Leyline.letters = [["A", "B"], ["C"]] ∧
    change_letter true "A" (mkInit true 1).h_lines 0 0 =
      ([⟨Sum.inr "1", ["1", "B"]⟩, ⟨Sum.inl 2, ["C"]⟩], 1, 0) ∧
    capThreshold 2 = 1 ∧ winThreshold 1 = 3 ∧
    is_over { mkInit true 1 with
      h_lines := (change_letter true "A" (mkInit true 1).h_lines 0 0).1,
      p1_score := 1 } = false := by
  refine ⟨?_, ?_, by decide, by decide, by decide, by decide, by decide⟩
  · intro ley p1 p2 k hval
    have hleft : ley.value.isLeft = true := by rw [hval]; rfl
    by_cases h1 : capThreshold ley.letters.length ≤ ley.letters.count "1"
    · rw [change_leyline_eq_of_cap1 ley p1 p2 hleft h1]
      refine ⟨by simp [h1], ?_, by simp [h1]⟩
      constructor
      · intro hcontra
        exact absurd hcontra (by simp)
      · intro hcontra
        omega
    · by_cases h2 : capThreshold ley.letters.length ≤ ley.letters.count "2"
      · rw [change_leyline_eq_of_cap2 ley p1 p2 hleft h1 h2]
        refine ⟨?_, by simp [h1, h2, Nat.lt_of_not_le h1], by simp [h1]⟩
        constructor
        · intro hcontra
          exact absurd hcontra (by simp)
        · intro hcontra
          exact absurd hcontra h1
      · rw [change_leyline_eq_of_nocap ley p1 p2 h1 h2]
        refine ⟨by simp [hval, h1], by simp [hval, h2], by simp [h1]⟩
  · intro ley p1 p2 t h
    exact change_leyline_claimed ley p1 p2 t h

/-- Witness for C3's general capture rule at a concrete unclaimed
leyline of two letters, one of them already claimed by player 1. -/
theorem claim3_capture_rule_witness :
    ((change_leyline ⟨Sum.inl 1, ["1", "B"]⟩ 0 0).1.value = Sum.inr "1" ↔
      capThreshold (Leyline.mk (Sum.inl 1) ["1", "B"]).letters.length ≤
        (Leyline.mk (Sum.inl 1) ["1", "B"]).letters.count "1") ∧
    ((change_leyline ⟨Sum.inl 1, ["1", "B"]⟩ 0 0).1.value = Sum.inr "2" ↔
      ((Leyline.mk (Sum.inl 1) ["1", "B"]).letters.count "1" <
        capThreshold (Leyline.mk (Sum.inl 1) ["1", "B"]).letters.length ∧
        capThreshold (Leyline.mk (Sum.inl 1) ["1", "B"]).letters.length ≤
          (Leyline.mk (Sum.inl 1) ["1", "B"]).letters.count "2")) ∧
    ((change_leyline ⟨Sum.inl 1, ["1", "B"]⟩ 0 0).2.1 =
      if capThreshold (Leyline.mk (Sum.inl 1) ["1", "B"]).letters.length ≤
        (Leyline.mk (Sum.inl 1) ["1", "B"]).letters.count "1" then 0 + 1 else 0) :=
  claim3_capture_rule.1 ⟨Sum.inl 1, ["1", "B"]⟩ 0 0 1 rfl

/-! ## Claim C4: capture permanence -/

/-- C4: once a leyline's value has been set to a player tag, no
`make_move` call changes it, in any of the three families. -/
theorem claim4_capture_permanent (s : State) (m : String) (i : Nat) (t : String) :
    (∀ ley ley', s.h_lines[i]? = some ley →
      (make_move s m).h_lines[i]? = some ley' →
      ley.value = Sum.inr t → ley'.value = Sum.inr t) ∧
    (∀ ley ley', s.r_lines[i]? = some ley →
      (make_move s m).r_lines[i]? = some ley' →
      ley.value = Sum.inr t → ley'.value = Sum.inr t) ∧
    (∀ ley ley', s.l_lines[i]? = some ley →
      (make_move s m).l_lines[i]? = some ley' →
      ley.value = Sum.inr t → ley'.value = Sum.inr t) := by
  refine ⟨?_, ?_, ?_⟩ <;>
    · intro ley ley' h1 h2 hv
      exact (forall₂_getElem? (change_letter_forall₂ _ _ _ _ _) i ley ley' h1 h2).2.1
        t hv

/-- Witness for C4: on the board of length 2, the horizontal leyline
`['A','B']` captured by player 1 keeps its owner after player 2 claims
`'B'`. -/
theorem claim4_capture_permanent_witness :
    (Leyline.mk (Sum.inr "1") ["1", "2"]).value = Sum.inr "1" :=
  (claim4_capture_permanent (make_move (mkInit true 2) "A") "B" 0 "1").1
    ⟨Sum.inr "1", ["1", "B"]⟩ ⟨Sum.inr "1", ["1", "2"]⟩ (by decide) (by decide)
    (by decide)

/-! ## Claim C5: terminal detection -/

/-- C5: `is_over` holds exactly when a score has reached the win
threshold `ceil(3*(b_length+1)/2)`; `make_move` never decreases a score
and preserves the board length; a successor state is terminal exactly
when its (new) scores reach the threshold — so along a play sequence a
state first becomes terminal at the move that raises a score to the
threshold, never earlier — and a terminal successor has its
`possible_moves` forced empty. -/
theorem claim5_terminal_detection (s : State) (m : String) :
    (is_over s = true ↔
      winThreshold s.b_length ≤ s.p1_score ∨ winThreshold s.b_length ≤ s.p2_score) ∧
    (make_move s m).b_length = s.b_length ∧
    s.p1_score ≤ (make_move s m).p1_score ∧
    s.p2_score ≤ (make_move s m).p2_score ∧
    (is_over (make_move s m) = true ↔
      winThreshold s.b_length ≤ (make_move s m).p1_score ∨
        winThreshold s.b_length ≤ (make_move s m).p2_score) ∧
    (is_over (make_move s m) = true → (make_move s m).possible_moves = []) := by
  refine ⟨?_, make_move_b_length s m, (make_move_score_mono s m).1,
    (make_move_score_mono s m).2, ?_, make_move_moves_of_over s m⟩
  · simp [is_over]
  · simp [is_over, make_move_b_length]

/-- Witness for C5 at the opening move of the board of length 1 (which
is exactly the move that first reaches the threshold). -/
theorem claim5_terminal_detection_witness :
    (is_over (mkInit true 1) = true ↔
      winThreshold (mkInit true 1).b_length ≤ (mkInit true 1).p1_score ∨
        winThreshold (mkInit true 1).b_length ≤ (mkInit true 1).p2_score) ∧
    (make_move (mkInit true 1) "A").b_length = (mkInit true 1).b_length ∧
    (mkInit true 1).p1_score ≤ (make_move (mkInit true 1) "A").p1_score ∧
    (mkInit true 1).p2_score ≤ (make_move (mkInit true 1) "A").p2_score ∧
    (is_over (make_move (mkInit true 1) "A") = true ↔
      winThreshold (mkInit true 1).b_length ≤
        (make_move (mkInit true 1) "A").p1_score ∨
      winThreshold (mkInit true 1).b_length ≤
        (make_move (mkInit true 1) "A").p2_score) ∧
    (is_over (make_move (mkInit true 1) "A") = true →
      (make_move (mkInit true 1) "A").possible_moves = []) :=
  claim5_terminal_detection (mkInit true 1) "A"

/-! ## Claim C7: `rough_outcome` (the code diverges from the claim) -/

/-- C7 evaluation at the failing input: the initial board of length 2 is
not over, no legal move immediately wins for either player, and no
second move from any child immediately wins either — so the claimed
specification requires `rough_outcome` to return `0` — yet the code
returns `-1`: its third branch tests the truthiness (non-emptiness) of
the per-child lists instead of their boolean contents, and its first
branch tests `p1_score` twice. -/
theorem claim7_rough_outcome_eval :
    rough_outcome (mkInit true 2) = -1 ∧
    is_over (mkInit true 2) = false ∧
    (mkInit true 2).possible_moves.all
      (fun m => !check_good_move (mkInit true 2) m) = true ∧
    (list_states (mkInit true 2)).all
      (fun c => c.possible_moves.all (fun m' => !check_good_move c m')) = true := by
  decide

/-! ## Claim C10: every terminal node is scored `-1` -/

/-- C10: whenever `is_over` holds, one of the two `is_winner` queries
also holds (they compare the same scores against the same threshold), so
the draw branch returning `0` in both helpers is unreachable and every
terminal node is scored `-1` — by `recursive_helper` directly and by the
iterative machine's terminal branch (one loop iteration). -/
theorem claim10_terminal_always_winner (s : State) (h : is_over s = true) :
    (is_winner_p1 s = true ∨ is_winner_p2 s = true) ∧
    leafScore s = -1 ∧ recursive_helper s = -1 ∧
    iterative_helper_fuel 1 s = some (-1) := by
  have hw : (is_winner_p2 s || is_winner_p1 s) = true := by
    simp only [is_over, Bool.or_eq_true, decide_eq_true_eq] at h
    simp only [is_winner_p1, is_winner_p2, Bool.or_eq_true, decide_eq_true_eq]
    tauto
  have hleaf : leafScore s = -1 := by simp [leafScore, hw]
  refine ⟨?_, hleaf, ?_, ?_⟩
  · simp only [Bool.or_eq_true] at hw
    tauto
  · rw [recursive_helper_unfold, if_pos h, hleaf]
  · simp [iterative_helper_fuel, runMach, step, nodeAt, replaceAt, h, hleaf]

/-- Witness for C10 at the state after the opening move on the board of
length 1, which is terminal with player 1 the winner. -/
theorem claim10_terminal_always_winner_witness :
    (is_winner_p1 (make_move (mkInit true 1) "A") = true ∨
      is_winner_p2 (make_move (mkInit true 1) "A") = true) ∧
    leafScore (make_move (mkInit true 1) "A") = -1 ∧
    recursive_helper (make_move (mkInit true 1) "A") = -1 ∧
    iterative_helper_fuel 1 (make_move (mkInit true 1) "A") = some (-1) :=
  claim10_terminal_always_winner (make_move (mkInit true 1) "A") (by decide)

theorem isTag_cases (x : String) (h : isTag x = true) : x = "1" ∨ x = "2" := by
  simp only [isTag, Bool.or_eq_true, beq_iff_eq] at h
  exact h

theorem mem_unclaimedOf (L : List Leyline) (ley : Leyline) (x : String)
    (hley : ley ∈ L) (hx : x ∈ ley.letters) (ht : isTag x = false) :
    x ∈ unclaimedOf L := by
  induction L with
  | nil => cases hley
  | cons l L ih =>
    rcases List.mem_cons.mp hley with h | h
    · subst h
      exact List.mem_append_left _ (List.mem_filter.mpr ⟨hx, by simp [ht]⟩)
    · exact List.mem_append_right _ (ih h)

theorem count_tags_eq_length (xs : List String) (h : ∀ x ∈ xs, isTag x = true) :
    xs.count "1" + xs.count "2" = xs.length := by
  induction xs with
  | nil => rfl
  | cons x xs ih =>
    have hx := h x (List.mem_cons_self x xs)
    have ihh := ih (fun y hy => h y (List.mem_cons_of_mem x hy))
    rcases isTag_cases x hx with h1 | h1 <;> subst h1
    · rw [List.count_cons_self, List.count_cons_of_ne (show ("2" : String) ≠ "1" by decide)]
      simp only [List.length_cons]
      omega
    · rw [List.count_cons_of_ne (show ("1" : String) ≠ "2" by decide), List.count_cons_self]
      simp only [List.length_cons]
      omega

theorem capturedCount_add_of_all (L : List Leyline)
    (h : ∀ ley ∈ L, ley.value = Sum.inr "1" ∨ ley.value = Sum.inr "2") :
    capturedCount "1" L + capturedCount "2" L = L.length := by
  induction L with
  | nil => rfl
  | cons l L ih =>
    have hl := h l (List.mem_cons_self l L)
    have ihh := ih (fun ley hley => h ley (List.mem_cons_of_mem l hley))
    rcases hl with h1 | h1
    · have e1 : cVal "1" l = 1 := by simp [cVal, h1]
      have e2 : cVal "2" l = 0 := by simp [cVal, h1]
      simp only [capturedCount, e1, e2, List.length_cons]
      omega
    · have e1 : cVal "1" l = 0 := by simp [cVal, h1]
      have e2 : cVal "2" l = 1 := by simp [cVal, h1]
      simp only [capturedCount, e1, e2, List.length_cons]
      omega

theorem countP_tag_add_filter (xs : List String) :
    xs.countP isTag + (xs.filter (fun x => !isTag x)).length = xs.length := by
  induction xs with
  | nil => rfl
  | cons x xs ih =>
    cases h : isTag x <;> simp [List.countP_cons, List.filter_cons, h] <;> omega

theorem claimedCells_add_unclaimed (L : List Leyline) :
    claimedCells L + (unclaimedOf L).length = lettersTotal L := by
  induction L with
  | nil => rfl
  | cons l L ih =>
    simp only [claimedCells, unclaimedOf, lettersTotal, List.length_append]
    have h1 := countP_tag_add_filter l.letters
    omega

/-! ### What `change_letter` does to family-level data -/

theorem isTag_tag (pt : Bool) : isTag (if pt then "1" else "2") = true := by
  cases pt <;> rfl

theorem replaceFirst_filter_nonTag (tag m : String) (hm : isTag m = false)
    (htag : isTag tag = true) (xs : List String) :
    (replaceFirst tag xs m).filter (fun x => !isTag x) =
      (xs.filter (fun x => !isTag x)).erase m := by
  induction xs with
  | nil => rfl
  | cons x xs ih =>
    by_cases hx : x = m
    · subst hx
      simp [replaceFirst, List.filter_cons, htag, hm]
    · by_cases ht : isTag x = true
      · simp [replaceFirst, hx, List.filter_cons, ht, ih]
      · have hxb : ¬(x == m) := by simpa using hx
        simp only [Bool.not_eq_true] at ht
        simp [replaceFirst, hx, List.filter_cons, ht, ih, List.erase_cons_tail hxb]

theorem change_letter_unclaimed (pt : Bool) (mv : String) (hmv : isTag mv = false) :
    ∀ (L : List Leyline) (p1 p2 : Nat),
      unclaimedOf (change_letter pt mv L p1 p2).1 = (unclaimedOf L).erase mv := by
  intro L
  induction L with
  | nil => intro p1 p2; rfl
  | cons ley rest ih =>
    intro p1 p2
    simp only [change_letter]
    split
    · next hmem =>
      show unclaimedOf ((change_leyline _ p1 p2).1 :: rest) = _
      simp only [unclaimedOf, change_leyline_letters]
      rw [replaceFirst_filter_nonTag _ _ hmv (isTag_tag pt)]
      have hin : mv ∈ ley.letters.filter (fun x => !isTag x) :=
        List.mem_filter.mpr ⟨hmem, by simp [hmv]⟩
      rw [List.erase_append_left _ hin]
    · next hmem =>
      show unclaimedOf (ley :: (change_letter pt mv rest p1 p2).1) = _
      simp only [unclaimedOf]
      rw [ih p1 p2]
      have hout : mv ∉ ley.letters.filter (fun x => !isTag x) :=
        fun hc => hmem (List.mem_of_mem_filter hc)
      rw [List.erase_append_right _ hout]

theorem change_letter_mem_rel (pt : Bool) (mv : String) :
    ∀ (L : List Leyline) (p1 p2 : Nat), ∀ ley' ∈ (change_letter pt mv L p1 p2).1,
      ley' ∈ L ∨ ∃ ley ∈ L, ∃ q1 q2,
        ley' = (change_leyline
          { ley with letters := replaceFirst (if pt then "1" else "2") ley.letters mv }
          q1 q2).1 := by
  intro L
  induction L with
  | nil => intro p1 p2 ley' h; cases h
  | cons ley rest ih =>
    intro p1 p2 ley' h
    simp only [change_letter] at h
    split at h
    · rcases List.mem_cons.mp h with h' | h'
      · exact Or.inr ⟨ley, List.mem_cons_self _ _, p1, p2, h'⟩
      · exact Or.inl (List.mem_cons_of_mem _ h')
    · rcases List.mem_cons.mp h with h' | h'
      · exact Or.inl (h' ▸ List.mem_cons_self _ _)
      · rcases ih p1 p2 ley' h' with hin | ⟨l0, hl0, q1, q2, heq⟩
        · exact Or.inl (List.mem_cons_of_mem _ hin)
        · exact Or.inr ⟨l0, List.mem_cons_of_mem _ hl0, q1, q2, heq⟩

theorem change_leyline_post_counts (ley : Leyline) (p1 p2 : Nat)
    (h : (change_leyline ley p1 p2).1.value.isLeft = true) :
    (change_leyline ley p1 p2).1.letters.count "1" <
      capThreshold (change_leyline ley p1 p2).1.letters.length ∧
    (change_leyline ley p1 p2).1.letters.count "2" <
      capThreshold (change_leyline ley p1 p2).1.letters.length := by
  rcases hv : ley.value with k | t
  · have hleft : ley.value.isLeft = true := by rw [hv]; rfl
    by_cases h1 : capThreshold ley.letters.length ≤ ley.letters.count "1"
    · rw [change_leyline_eq_of_cap1 ley p1 p2 hleft h1] at h
      simp at h
    · by_cases h2 : capThreshold ley.letters.length ≤ ley.letters.count "2"
      · rw [change_leyline_eq_of_cap2 ley p1 p2 hleft h1 h2] at h
        simp at h
      · rw [change_leyline_eq_of_nocap ley p1 p2 h1 h2]
        exact ⟨Nat.lt_of_not_le h1, Nat.lt_of_not_le h2⟩
  · rw [change_leyline_claimed ley p1 p2 t hv] at h ⊢
    rw [hv] at h
    cases h

theorem change_letter_counts_lt (pt : Bool) (mv : String) (L : List Leyline)
    (p1 p2 : Nat)
    (hpre : ∀ ley ∈ L, ley.value.isLeft = true →
      ley.letters.count "1" < capThreshold ley.letters.length ∧
      ley.letters.count "2" < capThreshold ley.letters.length) :
    ∀ ley' ∈ (change_letter pt mv L p1 p2).1, ley'.value.isLeft = true →
      ley'.letters.count "1" < capThreshold ley'.letters.length ∧
      ley'.letters.count "2" < capThreshold ley'.letters.length := by
  intro ley' hmem hleft
  rcases change_letter_mem_rel pt mv L p1 p2 ley' hmem with hin | ⟨ley, _, q1, q2, heq⟩
  · exact hpre ley' hin hleft
  · subst heq
    exact change_leyline_post_counts _ q1 q2 hleft

theorem change_letter_val_cases (pt : Bool) (mv : String) (L : List Leyline)
    (p1 p2 : Nat)
    (hpre : ∀ ley ∈ L, ley.value.isLeft = true ∨ ley.value = Sum.inr "1" ∨
      ley.value = Sum.inr "2") :
    ∀ ley' ∈ (change_letter pt mv L p1 p2).1,
      ley'.value.isLeft = true ∨ ley'.value = Sum.inr "1" ∨
        ley'.value = Sum.inr "2" := by
  intro ley' hmem
  rcases change_letter_mem_rel pt mv L p1 p2 ley' hmem with hin | ⟨ley, hley, q1, q2, heq⟩
  · exact hpre ley' hin
  · subst heq
    rcases change_leyline_value_cases
      { ley with letters := replaceFirst (if pt then "1" else "2") ley.letters mv }
      q1 q2 with h | h
    · rw [h]
      exact hpre ley hley
    · exact Or.inr h.2

theorem change_letter_ne_nil (pt : Bool) (mv : String) (L : List Leyline)
    (p1 p2 : Nat) (hpre : ∀ ley ∈ L, ley.letters ≠ []) :
    ∀ ley' ∈ (change_letter pt mv L p1 p2).1, ley'.letters ≠ [] := by
  intro ley' hmem
  rcases change_letter_mem_rel pt mv L p1 p2 ley' hmem with hin | ⟨ley, hley, q1, q2, heq⟩
  · exact hpre ley' hin
  · subst heq
    have hlen : (change_leyline
        { ley with letters := replaceFirst (if pt then "1" else "2") ley.letters mv }
        q1 q2).1.letters.length = ley.letters.length := by
      rw [change_leyline_letters]
      exact replaceFirst_length _ _ _
    intro hnil
    apply hpre ley hley
    apply List.length_eq_zero.mp
    rw [← hlen, hnil]
    rfl

theorem change_leyline_scores (ley : Leyline) (p1 p2 : Nat) :
    (change_leyline ley p1 p2).2.1 + cVal "1" ley =
      p1 + cVal "1" (change_leyline ley p1 p2).1 ∧
    (change_leyline ley p1 p2).2.2 + cVal "2" ley =
      p2 + cVal "2" (change_leyline ley p1 p2).1 := by
  rcases hv : ley.value with k | t
  · have hleft : ley.value.isLeft = true := by rw [hv]; rfl
    by_cases h1 : capThreshold ley.letters.length ≤ ley.letters.count "1"
    · rw [change_leyline_eq_of_cap1 ley p1 p2 hleft h1]
      simp [cVal, hv]
    · by_cases h2 : capThreshold ley.letters.length ≤ ley.letters.count "2"
      · rw [change_leyline_eq_of_cap2 ley p1 p2 hleft h1 h2]
        simp [cVal, hv]
      · rw [change_leyline_eq_of_nocap ley p1 p2 h1 h2]
        simp
  · rw [change_leyline_claimed ley p1 p2 t hv]
    simp

theorem change_letter_scores (pt : Bool) (mv : String) :
    ∀ (L : List Leyline) (p1 p2 : Nat),
      (change_letter pt mv L p1 p2).2.1 + capturedCount "1" L =
        p1 + capturedCount "1" (change_letter pt mv L p1 p2).1 ∧
      (change_letter pt mv L p1 p2).2.2 + capturedCount "2" L =
        p2 + capturedCount "2" (change_letter pt mv L p1 p2).1 := by
  intro L
  induction L with
  | nil => intro p1 p2; exact ⟨rfl, rfl⟩
  | cons ley rest ih =>
    intro p1 p2
    simp only [change_letter]
    split
    · next hmem =>
      set ley0 : Leyline :=
        { ley with letters := replaceFirst (if pt then "1" else "2") ley.letters mv }
        with hley0
      have hsc := change_leyline_scores ley0 p1 p2
      have hval : cVal "1" ley0 = cVal "1" ley ∧ cVal "2" ley0 = cVal "2" ley := by
        simp [cVal, hley0]
      simp only [capturedCount]
      constructor
      · have := hsc.1
        rw [hval.1] at this
        omega
      · have := hsc.2
        rw [hval.2] at this
        omega
    · next hmem =>
      have := ih p1 p2
      simp only [capturedCount]
      omega

theorem change_letter_lettersTotal (pt : Bool) (mv : String) :
    ∀ (L : List Leyline) (p1 p2 : Nat),
      lettersTotal (change_letter pt mv L p1 p2).1 = lettersTotal L := by
  intro L
  induction L with
  | nil => intro p1 p2; rfl
  | cons ley rest ih =>
    intro p1 p2
    simp only [change_letter]
    split
    · simp only [lettersTotal, change_leyline_letters, replaceFirst_length]
    · simp only [lettersTotal, ih]

theorem inv_mkInit (p : Bool) (b : Nat) (hb1 : 1 ≤ b) (hb5 : b ≤ 5) :
    Inv (mkInit p b) := by
  cases p <;> interval_cases b <;>
    exact ⟨by decide, by decide, by decide, by decide, by decide, by decide,
      by decide, by decide, by decide, by decide, by decide, by decide, by decide⟩

theorem inv_step (s : State) (m : String) (hInv : Inv s)
    (hm : m ∈ s.possible_moves) : Inv (make_move s m) := by
  have hno : is_over s = false := by
    cases h : is_over s
    · rfl
    · exact absurd (hInv.over_moves h ▸ hm) (List.not_mem_nil m)
  have hmtag : isTag m = false := hInv.moves_no_tag m hm
  set A := change_letter s.p1_turn m s.h_lines s.p1_score s.p2_score with hA
  set B := change_letter s.p1_turn m s.r_lines A.2.1 A.2.2 with hB
  set C := change_letter s.p1_turn m s.l_lines B.2.1 B.2.2 with hC
  have hh : (make_move s m).h_lines = A.1 := rfl
  have hr : (make_move s m).r_lines = B.1 := rfl
  have hl : (make_move s m).l_lines = C.1 := rfl
  have hp1 : (make_move s m).p1_score = C.2.1 := rfl
  have hp2 : (make_move s m).p2_score = C.2.2 := rfl
  have hbl : (make_move s m).b_length = s.b_length := rfl
  refine ⟨?_, ?_, ?_, ?_, ?_, ?_, ?_, ?_, ?_, ?_, ?_, ?_, ?_⟩
  · exact make_move_moves_of_over s m
  · intro h
    rw [hh, hA, change_letter_unclaimed _ _ hmtag, hInv.moves_eq hno,
      make_move_moves_of_not_over s m h]
  · rcases make_move_moves_cases s m with hc | hc <;> rw [hc]
    · exact List.nodup_nil
    · exact hInv.moves_nodup.erase m
  · intro x hx
    rcases make_move_moves_cases s m with hc | hc <;> rw [hc] at hx
    · cases hx
    · exact hInv.moves_no_tag x (List.mem_of_mem_erase hx)
  · intro L hL ley hley hleft
    simp only [List.mem_cons, List.not_mem_nil, or_false] at hL
    rcases hL with rfl | rfl | rfl
    · rw [hh] at hley
      exact change_letter_counts_lt _ _ _ _ _
        (hInv.counts_lt s.h_lines (by simp)) ley hley hleft
    · rw [hr] at hley
      exact change_letter_counts_lt _ _ _ _ _
        (hInv.counts_lt s.r_lines (by simp)) ley hley hleft
    · rw [hl] at hley
      exact change_letter_counts_lt _ _ _ _ _
        (hInv.counts_lt s.l_lines (by simp)) ley hley hleft
  · intro h L hL x hx
    rw [make_move_moves_of_not_over s m h]
    simp only [List.mem_cons, List.not_mem_nil, or_false] at hL
    have key : ∀ (F : List Leyline), F ∈ [s.h_lines, s.r_lines, s.l_lines] →
        x ∈ (unclaimedOf F).erase m → x ∈ s.possible_moves.erase m := by
      intro F hF hxF
      obtain ⟨hne, hxin⟩ := ((hInv.fam_nodup F hF).mem_erase_iff).mp hxF
      exact (List.mem_erase_of_ne hne).mpr (hInv.mem_moves hno F hF x hxin)
    rcases hL with rfl | rfl | rfl
    · rw [hh, hA, change_letter_unclaimed _ _ hmtag] at hx
      exact key s.h_lines (by simp) hx
    · rw [hr, hB, change_letter_unclaimed _ _ hmtag] at hx
      exact key s.r_lines (by simp) hx
    · rw [hl, hC, change_letter_unclaimed _ _ hmtag] at hx
      exact key s.l_lines (by simp) hx
  · intro L hL
    simp only [List.mem_cons, List.not_mem_nil, or_false] at hL
    rcases hL with rfl | rfl | rfl
    · rw [hh, hA, change_letter_unclaimed _ _ hmtag]
      exact (hInv.fam_nodup s.h_lines (by simp)).erase m
    · rw [hr, hB, change_letter_unclaimed _ _ hmtag]
      exact (hInv.fam_nodup s.r_lines (by simp)).erase m
    · rw [hl, hC, change_letter_unclaimed _ _ hmtag]
      exact (hInv.fam_nodup s.l_lines (by simp)).erase m
  · intro L hL ley hley
    simp only [List.mem_cons, List.not_mem_nil, or_false] at hL
    rcases hL with rfl | rfl | rfl
    · rw [hh] at hley
      exact change_letter_val_cases _ _ _ _ _
        (hInv.val_cases s.h_lines (by simp)) ley hley
    · rw [hr] at hley
      exact change_letter_val_cases _ _ _ _ _
        (hInv.val_cases s.r_lines (by simp)) ley hley
    · rw [hl] at hley
      exact change_letter_val_cases _ _ _ _ _
        (hInv.val_cases s.l_lines (by simp)) ley hley
  · rw [hp1, hh, hr, hl]
    have e1 := (change_letter_scores s.p1_turn m s.h_lines s.p1_score s.p2_score).1
    have e2 := (change_letter_scores s.p1_turn m s.r_lines A.2.1 A.2.2).1
    have e3 := (change_letter_scores s.p1_turn m s.l_lines B.2.1 B.2.2).1
    have hpre := hInv.score1
    rw [← hA] at e1
    rw [← hB] at e2
    rw [← hC] at e3
    omega
  · rw [hp2, hh, hr, hl]
    have e1 := (change_letter_scores s.p1_turn m s.h_lines s.p1_score s.p2_score).2
    have e2 := (change_letter_scores s.p1_turn m s.r_lines A.2.1 A.2.2).2
    have e3 := (change_letter_scores s.p1_turn m s.l_lines B.2.1 B.2.2).2
    have hpre := hInv.score2
    rw [← hA] at e1
    rw [← hB] at e2
    rw [← hC] at e3
    omega
  · rw [hh, hr, hl, hbl, hA, hB, hC, change_letter_length, change_letter_length,
      change_letter_length]
    exact hInv.lens
  · intro L hL ley hley
    simp only [List.mem_cons, List.not_mem_nil, or_false] at hL
    rcases hL with rfl | rfl | rfl
    · rw [hh] at hley
      exact change_letter_ne_nil _ _ _ _ _
        (hInv.ley_ne s.h_lines (by simp)) ley hley
    · rw [hr] at hley
      exact change_letter_ne_nil _ _ _ _ _
        (hInv.ley_ne s.r_lines (by simp)) ley hley
    · rw [hl] at hley
      exact change_letter_ne_nil _ _ _ _ _
        (hInv.ley_ne s.l_lines (by simp)) ley hley
  · rw [hh, hbl, hA, change_letter_lettersTotal]
    exact hInv.hsum

theorem reachable_inv {s : State} (h : Reachable s) : Inv s := by
  induction h with
  | init p b hb1 hb5 => exact inv_mkInit p b hb1 hb5
  | step s m _ hm ih => exact inv_step s m ih hm

theorem inv_moves_ne (s : State) (hInv : Inv s) (hno : is_over s = false) :
    s.possible_moves ≠ [] := by
  intro hmov
  have hempty : ∀ L ∈ [s.h_lines, s.r_lines, s.l_lines], unclaimedOf L = [] := by
    intro L hL
    apply List.eq_nil_iff_forall_not_mem.mpr
    intro x hx
    have := hInv.mem_moves hno L hL x hx
    rw [hmov] at this
    cases this
  have htags : ∀ L ∈ [s.h_lines, s.r_lines, s.l_lines], ∀ ley ∈ L,
      ∀ x ∈ ley.letters, isTag x = true := by
    intro L hL ley hley x hx
    cases ht : isTag x
    · have := mem_unclaimedOf L ley x hley hx ht
      rw [hempty L hL] at this
      cases this
    · rfl
  have hcap : ∀ L ∈ [s.h_lines, s.r_lines, s.l_lines], ∀ ley ∈ L,
      ley.value = Sum.inr "1" ∨ ley.value = Sum.inr "2" := by
    intro L hL ley hley
    rcases hInv.val_cases L hL ley hley with h | h | h
    · exfalso
      obtain ⟨hc1, hc2⟩ := hInv.counts_lt L hL ley hley h
      have hlen := count_tags_eq_length ley.letters (htags L hL ley hley)
      have hne := hInv.ley_ne L hL ley hley
      have hpos : 1 ≤ ley.letters.length :=
        List.length_pos.mpr hne
      have hthr : capThreshold ley.letters.length = (ley.letters.length + 1) / 2 := rfl
      omega
    · exact Or.inl h
    · exact Or.inr h
  have e1 := capturedCount_add_of_all s.h_lines (hcap s.h_lines (by simp))
  have e2 := capturedCount_add_of_all s.r_lines (hcap s.r_lines (by simp))
  have e3 := capturedCount_add_of_all s.l_lines (hcap s.l_lines (by simp))
  obtain ⟨hl1, hl2, hl3⟩ := hInv.lens
  have hs1 := hInv.score1
  have hs2 := hInv.score2
  have hW : winThreshold s.b_length = (3 * (s.b_length + 1) + 1) / 2 := rfl
  simp only [is_over, Bool.or_eq_false_iff, decide_eq_false_iff_not] at hno
  omega

theorem reachable_wft_aux :
    ∀ (n : Nat) (s : State), Reachable s → s.possible_moves.length ≤ n → WFt s := by
  intro n
  induction n with
  | zero =>
    intro s hr hlen
    cases h : is_over s
    · exfalso
      apply inv_moves_ne s (reachable_inv hr) h
      exact List.length_eq_zero.mp (Nat.le_zero.mp hlen)
    · exact WFt.over s h
  | succ n ih =>
    intro s hr hlen
    cases h : is_over s
    · refine WFt.expand s h (inv_moves_ne s (reachable_inv hr) h) ?_
      intro m hm
      refine ih (make_move s m) (Reachable.step s m hr hm) ?_
      have := make_move_length_lt s m hm
      omega
    · exact WFt.over s h

theorem reachable_wft {s : State} (h : Reachable s) : WFt s :=
  reachable_wft_aux s.possible_moves.length s h (le_refl _)

/-! ## Claim C6: the cell-count equation (fails at forced-terminal states) -/

/-- Counterexample to C6 as stated: the state after the opening move
`'A'` on the board of length 1 is reachable, but the game ends there
with two cells still unclaimed, so `len(possible_moves) + claimed = 0 +
1 ≠ 3 = total cells`. -/
theorem claim6_counterexample :
    Reachable (make_move (mkInit true 1) "A") ∧
    (make_move (mkInit true 1) "A").possible_moves.length +
        claimedCells (make_move (mkInit true 1) "A").h_lines ≠
      numCells (make_move (mkInit true 1) "A").b_length :=
  ⟨Reachable.step _ _ (Reachable.init true 1 (by omega) (by omega)) (by decide),
    by decide⟩

/-- C6 amended: for every reachable state that is *not* terminal, the
number of possible moves plus the number of claimed cells equals the
total number of cells `(b_length^2 + 5*b_length)/2`.  (At a terminal
state `make_move` forces `possible_moves` empty while unclaimed cells
may remain, so the equation as originally stated fails there.) -/
theorem claim6_amended (s : State) (hr : Reachable s)
    (hno : is_over s = false) :
    s.possible_moves.length + claimedCells s.h_lines = numCells s.b_length := by
  have hInv := reachable_inv hr
  have h1 := hInv.moves_eq hno
  have h2 := claimedCells_add_unclaimed s.h_lines
  have h3 := hInv.hsum
  rw [h1] at h2
  omega

/-- Witness for C6 (amended) at the initial board of length 2. -/
theorem claim6_amended_witness :
    (mkInit true 2).possible_moves.length + claimedCells (mkInit true 2).h_lines =
      numCells (mkInit true 2).b_length :=
  claim6_amended (mkInit true 2) (Reachable.init true 2 (by omega) (by omega))
    (by decide)

/-! ## Claim C9: double application of a move fails fast -/

/-- C9: applying a legal move `m` succeeds, and immediately applying the
same `m` to the resulting state is rejected (`possible_moves.remove`
raises, modelled by `none`): `m` is gone from the new move list, whether
by removal or by the terminal forcing. -/
theorem claim9_double_apply_rejected (s : State) (m : String)
    (hr : Reachable s) (hm : m ∈ s.possible_moves) :
    make_move_checked s m = some (make_move s m) ∧
    make_move_checked (make_move s m) m = none := by
  constructor
  · simp [make_move_checked, hm]
  · have hnm : m ∉ (make_move s m).possible_moves := by
      rcases make_move_moves_cases s m with hc | hc <;> rw [hc]
      · exact List.not_mem_nil m
      · exact (reachable_inv hr).moves_nodup.not_mem_erase
    simp [make_move_checked, hnm]

/-- Witness for C9: the opening move `'A'` on the board of length 2. -/
theorem claim9_double_apply_rejected_witness :
    make_move_checked (mkInit true 2) "A" =
      some (make_move (mkInit true 2) "A") ∧
    make_move_checked (make_move (mkInit true 2) "A") "A" = none :=
  claim9_double_apply_rejected (mkInit true 2) "A"
    (Reachable.init true 2 (by omega) (by omega)) (by decide)

/-! ## Correctness of the iterative stack machine

The machine configuration is a tree plus a stack of paths; these lemmas
are the algebra of reading (`nodeAt`) and functionally updating
(`replaceAt`) a node at a path. -/

theorem set_getElem?_self {α : Type} :
    ∀ (l : List α) (i : Nat) (a : α), l[i]? = some a → l.set i a = l := by
  intro l
  induction l with
  | nil => intro i a h; cases i <;> cases h
  | cons x xs ih =>
    intro i a h
    cases i with
    | zero =>
      simp only [List.getElem?_cons_zero, Option.some.injEq] at h
      rw [List.set_cons_zero, h]
    | succ i =>
      simp only [List.getElem?_cons_succ] at h
      rw [List.set_cons_succ, ih i a h]

theorem replaceAt_self :
    ∀ (p : List Nat) (t n : GTree), nodeAt t p = some n → replaceAt t p n = t := by
  intro p
  induction p with
  | nil =>
    intro t n h
    simp only [nodeAt, Option.some.injEq] at h
    rw [replaceAt, h]
  | cons i p ih =>
    intro t n h
    simp only [nodeAt] at h
    simp only [replaceAt]
    cases hc : t.children[i]? with
    | none => rfl
    | some c =>
      rw [hc] at h
      dsimp only
      rw [ih c n h, set_getElem?_self _ _ _ hc]
      obtain ⟨tg, ts, tc⟩ := t
      rfl

theorem nodeAt_replaceAt_self :
    ∀ (p : List Nat) (t n s : GTree), nodeAt t p = some n →
      nodeAt (replaceAt t p s) p = some s := by
  intro p
  induction p with
  | nil => intro t n s _; rfl
  | cons i p ih =>
    intro t n s h
    simp only [nodeAt] at h
    cases hc : t.children[i]? with
    | none => rw [hc] at h; cases h
    | some c =>
      rw [hc] at h
      have hi : i < t.children.length := by
        by_contra hcon
        rw [List.getElem?_eq_none (by omega)] at hc
        cases hc
      simp only [replaceAt, hc, nodeAt]
      rw [List.getElem?_set_self (by simpa using hi)]
      exact ih c n s h

theorem replaceAt_replaceAt :
    ∀ (p : List Nat) (t n s s' : GTree), nodeAt t p = some n →
      replaceAt (replaceAt t p s) p s' = replaceAt t p s' := by
  intro p
  induction p with
  | nil => intro t n s s' _; rfl
  | cons i p ih =>
    intro t n s s' h
    simp only [nodeAt] at h
    cases hc : t.children[i]? with
    | none => rw [hc] at h; cases h
    | some c =>
      rw [hc] at h
      have hi : i < t.children.length := by
        by_contra hcon
        rw [List.getElem?_eq_none (by omega)] at hc
        cases hc
      simp only [replaceAt, hc]
      rw [List.getElem?_set_self (by simpa using hi)]
      simp only [ih c n s s' h, List.set_set]

theorem nodeAt_append :
    ∀ (p q : List Nat) (t n : GTree), nodeAt t p = some n →
      nodeAt t (p ++ q) = nodeAt n q := by
  intro p
  induction p with
  | nil =>
    intro q t n h
    simp only [nodeAt, Option.some.injEq] at h
    rw [List.nil_append, h]
  | cons i p ih =>
    intro q t n h
    simp only [nodeAt] at h
    cases hc : t.children[i]? with
    | none => rw [hc] at h; cases h
    | some c =>
      rw [hc] at h
      simp only [List.cons_append, nodeAt, hc]
      exact ih q c n h

theorem replaceAt_append :
    ∀ (p q : List Nat) (t n : GTree) (s : GTree), nodeAt t p = some n →
      replaceAt t (p ++ q) s = replaceAt t p (replaceAt n q s) := by
  intro p
  induction p with
  | nil =>
    intro q t n s h
    simp only [nodeAt, Option.some.injEq] at h
    rw [List.nil_append, replaceAt, h]
  | cons i p ih =>
    intro q t n s h
    simp only [nodeAt] at h
    cases hc : t.children[i]? with
    | none =>
      rw [hc] at h; cases h
    | some c =>
      rw [hc] at h
      simp only [List.cons_append, replaceAt, hc]
      simp only [List.append_eq]
      rw [ih q c n s h]

/-- Replacing below `p` then at `p` collapses to replacing at `p`. -/
theorem replaceAt_deep_then_top (p : List Nat) (q : List Nat) (t n : GTree)
    (s s' : GTree) (h : nodeAt t p = some n) :
    replaceAt (replaceAt t (p ++ q) s) p s' = replaceAt t p s' := by
  rw [replaceAt_append p q t n s h]
  exact replaceAt_replaceAt p t n _ s' h

theorem stepN_add (a b : Nat) :
    ∀ (m : Mach), stepN (a + b) m = (stepN a m).bind (stepN b) := by
  induction a with
  | zero =>
    intro m
    rw [Nat.zero_add]
    simp [stepN]
  | succ a ih =>
    intro m
    rw [show a + 1 + b = (a + b) + 1 by omega]
    simp only [stepN]
    cases hsm : step m with
    | none => rfl
    | some m' =>
      simp only [Option.some_bind]
      exact ih m'

theorem stepN_one (m : Mach) : stepN 1 m = step m := by
  simp only [stepN]
  cases step m <;> rfl

theorem runMach_of_steps :
    ∀ (k : Nat) (m : Mach) (v : Int),
      (∀ i, i ≤ k → ∃ mi, stepN i m = some mi ∧
        (mi.1.score = none ∨ mi.1.score = some v)) →
      (∃ mk0, stepN k m = some mk0 ∧ mk0.1.score = some v) →
      ∀ n, k ≤ n → runMach n m = some v := by
  intro k
  induction k with
  | zero =>
    intro m v _ hfin n _
    obtain ⟨mk0, hmk, hsc⟩ := hfin
    have : m = mk0 := by
      simpa [stepN] using hmk
    subst this
    cases n <;> simp [runMach, hsc]
  | succ k ih =>
    intro m v hall hfin n hn
    cases hs : m.1.score with
    | some v' =>
      obtain ⟨m0, hm0, hsc0⟩ := hall 0 (by omega)
      have hm0e : m = m0 := by simpa [stepN] using hm0
      subst hm0e
      rcases hsc0 with h | h
      · rw [hs] at h; cases h
      · rw [hs] at h
        cases n <;> simp [runMach, hs, h]
    | none =>
      obtain ⟨m1, hm1, _⟩ := hall 1 (by omega)
      rw [stepN_one] at hm1
      have hshift : ∀ i, i ≤ k → ∃ mi, stepN i m1 = some mi ∧
          (mi.1.score = none ∨ mi.1.score = some v) := by
        intro i hi
        obtain ⟨mi, hmi, hsci⟩ := hall (i + 1) (by omega)
        refine ⟨mi, ?_, hsci⟩
        rw [show i + 1 = 1 + i by omega, stepN_add, stepN_one, hm1] at hmi
        simpa using hmi
      have hfin1 : ∃ mk0, stepN k m1 = some mk0 ∧ mk0.1.score = some v := by
        obtain ⟨mk0, hmk, hsc⟩ := hfin
        refine ⟨mk0, ?_, hsc⟩
        rw [show k + 1 = 1 + k by omega, stepN_add, stepN_one, hm1] at hmk
        simpa using hmk
      cases n with
      | zero => omega
      | succ n' =>
        have : runMach (n' + 1) m = (step m).bind (runMach n') := by
          simp [runMach, hs]
        rw [this, hm1]
        exact ih m1 v hshift hfin1 n' (by omega)

/-! ### One-iteration computation lemmas for `step` -/

theorem step_over (tree : GTree) (p : List Nat) (rest : List (List Nat))
    (n : GTree) (hn : nodeAt tree p = some n) (hov : is_over n.game = true) :
    step (tree, p :: rest) =
      some (replaceAt tree p { n with score := some (leafScore n.game) }, rest) := by
  simp [step, hn, hov]

theorem step_expand (tree : GTree) (p : List Nat) (rest : List (List Nat))
    (n : GTree) (hn : nodeAt tree p = some n) (hov : is_over n.game = false)
    (hch : n.children = []) :
    step (tree, p :: rest) = some
      (replaceAt tree p
          { n with
            children := (get_possible_moves n.game).map
              (fun mv => GTree.mk (make_move n.game mv) none []) },
        childPaths p (get_possible_moves n.game).length ++ p :: p :: rest) := by
  simp [step, hn, hov, hch]

theorem step_score (tree : GTree) (p : List Nat) (rest : List (List Nat))
    (n : GTree) (vs : List Int) (v : Int) (hn : nodeAt tree p = some n)
    (hov : is_over n.game = false) (hch : n.children ≠ [])
    (hm : scoresOf n.children = some vs)
    (hv : maxListO (vs.map (fun x => -x)) = some v) :
    step (tree, p :: rest) =
      some (replaceAt tree p { n with score := some v }, rest) := by
  have hch' : n.children.isEmpty = false := by
    cases hc : n.children.isEmpty
    · rfl
    · exact absurd (List.isEmpty_iff.mp hc) hch
  simp [step, hn, hov, hch', hm, hv]

theorem childPaths_succ (p : List Nat) (j : Nat) :
    childPaths p (j + 1) = (p ++ [j]) :: childPaths p j := by
  simp [childPaths, List.range_succ]

theorem forall₂_of_pointwise {α β : Type} (R : α → β → Prop) :
    ∀ (xs : List α) (ys : List β), xs.length = ys.length →
      (∀ i, i < xs.length → ∀ a b, xs[i]? = some a → ys[i]? = some b → R a b) →
      List.Forall₂ R xs ys := by
  intro xs
  induction xs with
  | nil =>
    intro ys hlen _
    cases ys with
    | nil => exact List.Forall₂.nil
    | cons y ys => cases hlen
  | cons x xs ih =>
    intro ys hlen hpt
    cases ys with
    | nil => cases hlen
    | cons y ys =>
      refine List.Forall₂.cons (hpt 0 (by simp) x y (by simp) (by simp)) ?_
      refine ih ys (by simpa using hlen) ?_
      intro i hi a b h1 h2
      exact hpt (i + 1) (by simpa using Nat.succ_lt_succ hi) a b
        (by simpa using h1) (by simpa using h2)

theorem scoresOf_eq (cs : List GTree) (vs : List Int)
    (h : List.Forall₂ (fun c v => c.score = some v) cs vs) :
    scoresOf cs = some vs := by
  induction h with
  | nil => rfl
  | cons hr _ ihr => simp [scoresOf, hr, ihr]

theorem mapO_some_of_forall {α β : Type} (F : α → Option β) (G : α → β) :
    ∀ (l : List α), (∀ m ∈ l, F m = some (G m)) → mapO F l = some (l.map G) := by
  intro l
  induction l with
  | nil => intro _; rfl
  | cons x xs ih =>
    intro h
    have hx := h x (List.mem_cons_self x xs)
    have hxs := ih (fun m hm => h m (List.mem_cons_of_mem x hm))
    simp [mapO, hx, hxs]

/-! ### The children-processing phase of the machine -/

theorem machine_children
    (s : State) (tree : GTree) (p : List Nat) (rest : List (List Nat))
    (hn : nodeAt tree p = some (GTree.mk s none []))
    (ihp : ∀ mv ∈ s.possible_moves,
      ∀ (tree' : GTree) (p' : List Nat) (rest' : List (List Nat)),
        nodeAt tree' p' = some (GTree.mk (make_move s mv) none []) →
        ∃ (k : Nat) (sub : GTree), sub.game = make_move s mv ∧
          sub.score = some (recursive_helper (make_move s mv)) ∧
          stepN k (tree', p' :: rest') = some (replaceAt tree' p' sub, rest') ∧
          ∀ i, i ≤ k → ∃ (si : GTree) (extra : List (List Nat)),
            stepN i (tree', p' :: rest') = some (replaceAt tree' p' si, extra ++ rest') ∧
            (si.score = none ∨ si.score = some (recursive_helper (make_move s mv)))) :
    ∀ (j : Nat), j ≤ s.possible_moves.length →
      ∀ (csj : List GTree), csj.length = s.possible_moves.length →
        (∀ i, i < j → csj[i]? =
          (s.possible_moves.map (fun mv => GTree.mk (make_move s mv) none []))[i]?) →
        (∀ i, j ≤ i → i < s.possible_moves.length →
          ∃ c, csj[i]? = some c ∧ ∃ mv, s.possible_moves[i]? = some mv ∧
            c.score = some (recursive_helper (make_move s mv))) →
        ∃ (k : Nat) (cs0 : List GTree),
          cs0.length = s.possible_moves.length ∧
          (∀ i, i < s.possible_moves.length →
            ∃ c, cs0[i]? = some c ∧ ∃ mv, s.possible_moves[i]? = some mv ∧
              c.score = some (recursive_helper (make_move s mv))) ∧
          stepN k (replaceAt tree p (GTree.mk s none csj),
              childPaths p j ++ p :: p :: rest) =
            some (replaceAt tree p (GTree.mk s none cs0), p :: p :: rest) ∧
          ∀ i, i ≤ k → ∃ (csI : List GTree) (extra : List (List Nat)),
            stepN i (replaceAt tree p (GTree.mk s none csj),
                childPaths p j ++ p :: p :: rest) =
              some (replaceAt tree p (GTree.mk s none csI), extra ++ rest) := by
  intro j
  induction j with
  | zero =>
    intro _ csj hlen _ hscored
    refine ⟨0, csj, hlen, fun i hi => hscored i (by omega) hi, ?_, ?_⟩
    · simp [stepN, childPaths]
    · intro i hi
      interval_cases i
      refine ⟨csj, [p, p], ?_⟩
      simp [stepN, childPaths]
  | succ j ihj =>
    intro hj csj hlen hfresh hscored
    have hjlt : j < s.possible_moves.length := by omega
    obtain ⟨mv, hmv⟩ : ∃ mv, s.possible_moves[j]? = some mv :=
      ⟨s.possible_moves.get ⟨j, hjlt⟩, List.getElem?_eq_getElem hjlt⟩
    have hfj : csj[j]? = some (GTree.mk (make_move s mv) none []) := by
      rw [hfresh j (by omega), List.getElem?_map, hmv]
      rfl
    have hn1 : nodeAt (replaceAt tree p (GTree.mk s none csj)) p =
        some (GTree.mk s none csj) := nodeAt_replaceAt_self p tree _ _ hn
    have hn2 : nodeAt (replaceAt tree p (GTree.mk s none csj)) (p ++ [j]) =
        some (GTree.mk (make_move s mv) none []) := by
      rw [nodeAt_append p [j] _ _ hn1]
      simp [nodeAt, hfj]
    obtain ⟨k1, sub, hsubg, hsubs, hk1, hint1⟩ := ihp mv (List.getElem?_mem hmv)
      (replaceAt tree p (GTree.mk s none csj)) (p ++ [j])
      (childPaths p j ++ p :: p :: rest) hn2
    have collapse : ∀ (x : GTree),
        replaceAt (replaceAt tree p (GTree.mk s none csj)) (p ++ [j]) x =
          replaceAt tree p (GTree.mk s none (csj.set j x)) := by
      intro x
      rw [replaceAt_append p [j] _ _ x hn1, replaceAt_replaceAt p tree _ _ _ hn]
      congr 1
      simp [replaceAt, hfj]
    have hstack : (p ++ [j]) :: (childPaths p j ++ p :: p :: rest) =
        childPaths p (j + 1) ++ p :: p :: rest := by
      rw [childPaths_succ]
      rfl
    have hlen' : (csj.set j sub).length = s.possible_moves.length := by
      simpa using hlen
    have hfresh' : ∀ i, i < j → (csj.set j sub)[i]? =
        (s.possible_moves.map (fun mv => GTree.mk (make_move s mv) none []))[i]? := by
      intro i hi
      rw [List.getElem?_set_ne (by omega)]
      exact hfresh i (by omega)
    have hscored' : ∀ i, j ≤ i → i < s.possible_moves.length →
        ∃ c, (csj.set j sub)[i]? = some c ∧ ∃ mv0, s.possible_moves[i]? = some mv0 ∧
          c.score = some (recursive_helper (make_move s mv0)) := by
      intro i hji hi
      rcases Nat.eq_or_lt_of_le hji with heq | hlt
      · subst heq
        rw [List.getElem?_set_self (by omega)]
        exact ⟨sub, rfl, mv, hmv, hsubs⟩
      · rw [List.getElem?_set_ne (by omega)]
        exact hscored i (by omega) hi
    obtain ⟨k2, cs0, hcs0len, hcs0sc, hk2, hint2⟩ :=
      ihj (by omega) (csj.set j sub) hlen' hfresh' hscored'
    have hmid : stepN k1 (replaceAt tree p (GTree.mk s none csj),
        childPaths p (j + 1) ++ p :: p :: rest) =
        some (replaceAt tree p (GTree.mk s none (csj.set j sub)),
          childPaths p j ++ p :: p :: rest) := by
      rw [← hstack, hk1, collapse sub]
    refine ⟨k1 + k2, cs0, hcs0len, hcs0sc, ?_, ?_⟩
    · rw [stepN_add, hmid, Option.some_bind]
      exact hk2
    · intro i hi
      by_cases hik : i ≤ k1
      · obtain ⟨si, extra, hsi, _⟩ := hint1 i hik
        refine ⟨csj.set j si, extra ++ childPaths p j ++ [p, p], ?_⟩
        rw [← hstack, hsi, collapse si]
        simp
      · obtain ⟨i', rfl⟩ : ∃ i', i = k1 + i' := ⟨i - k1, by omega⟩
        obtain ⟨csI, extra, hcsI⟩ := hint2 i' (by omega)
        refine ⟨csI, extra, ?_⟩
        rw [stepN_add, hmid, Option.some_bind]
        exact hcsI

/-- The heart of the equivalence: started on a fresh node for a
well-founded game `g` at path `p`, the machine runs for some number of
iterations, ends with that node scored `recursive_helper g` and popped,
and meanwhile only ever shows `none` or that final value as the node's
score. -/
theorem machine_processes (g : State) (hwf : WFt g) :
    ∀ (tree : GTree) (p : List Nat) (rest : List (List Nat)),
      nodeAt tree p = some (GTree.mk g none []) →
      ∃ (k : Nat) (sub : GTree),
        sub.game = g ∧ sub.score = some (recursive_helper g) ∧
        stepN k (tree, p :: rest) = some (replaceAt tree p sub, rest) ∧
        ∀ i, i ≤ k → ∃ (si : GTree) (extra : List (List Nat)),
          stepN i (tree, p :: rest) = some (replaceAt tree p si, extra ++ rest) ∧
          (si.score = none ∨ si.score = some (recursive_helper g)) := by
  induction hwf with
  | over s hov =>
    intro tree p rest hn
    have hrh : recursive_helper s = leafScore s := by
      rw [recursive_helper_unfold, if_pos hov]
    refine ⟨1, GTree.mk s (some (leafScore s)) [], rfl, by rw [hrh], ?_, ?_⟩
    · rw [stepN_one, step_over tree p rest _ hn hov]
    · intro i hi
      interval_cases i
      · refine ⟨GTree.mk s none [], [p], ?_, Or.inl rfl⟩
        have h0 := replaceAt_self p tree (GTree.mk s none []) hn
        simp [stepN, h0]
      · refine ⟨GTree.mk s (some (leafScore s)) [], [], ?_, Or.inr (by rw [hrh])⟩
        rw [stepN_one, step_over tree p rest _ hn hov]
        rfl
  | expand s hno hne hc ih =>
    intro tree p rest hn
    have hstep1 : step (tree, p :: rest) =
        some (replaceAt tree p (GTree.mk s none
            (s.possible_moves.map (fun mv => GTree.mk (make_move s mv) none []))),
          childPaths p s.possible_moves.length ++ p :: p :: rest) := by
      rw [step_expand tree p rest (GTree.mk s none []) hn hno rfl]
      rfl
    have hmapne : s.possible_moves.map
        (fun mv => -recursive_helper (make_move s mv)) ≠ [] := by
      simpa using hne
    obtain ⟨v, hvmax⟩ := maxListO_of_ne_nil _ hmapne
    have hrv : recursive_helper s = v := by
      rw [recursive_helper_unfold, if_neg (by simp [hno]), hvmax]
      rfl
    obtain ⟨k2, cs0, hcs0len, hcs0sc, hk2, hint2⟩ :=
      machine_children s tree p rest hn ih s.possible_moves.length (le_refl _)
        (s.possible_moves.map (fun mv => GTree.mk (make_move s mv) none []))
        (by simp) (fun i _ => rfl) (fun i h1 h2 => absurd h1 (by omega))
    have hf2 : List.Forall₂ (fun c v0 => c.score = some v0) cs0
        (s.possible_moves.map (fun mv => recursive_helper (make_move s mv))) := by
      apply forall₂_of_pointwise
      · rw [hcs0len, List.length_map]
      · intro i hi a b ha hb
        have hi' : i < s.possible_moves.length := by rw [← hcs0len]; exact hi
        obtain ⟨c, hcin, mv, hmvin, hcsc⟩ := hcs0sc i hi'
        rw [hcin] at ha
        rw [List.getElem?_map, hmvin] at hb
        simp only [Option.map_some, Option.some.injEq] at ha hb
        rw [← ha, ← hb]
        exact hcsc
    have hscores : scoresOf cs0 = some (s.possible_moves.map
        (fun mv => recursive_helper (make_move s mv))) := scoresOf_eq _ _ hf2
    have hnegmap : (s.possible_moves.map
        (fun mv => recursive_helper (make_move s mv))).map (fun x => -x) =
        s.possible_moves.map (fun mv => -recursive_helper (make_move s mv)) := by
      rw [List.map_map]
      rfl
    have hcs0ne : cs0 ≠ [] := by
      intro hnil
      rw [hnil] at hcs0len
      exact hne (List.length_eq_zero.mp hcs0len.symm)
    have hn0 : nodeAt (replaceAt tree p (GTree.mk s none cs0)) p =
        some (GTree.mk s none cs0) := nodeAt_replaceAt_self p tree _ _ hn
    have hstep2 : step (replaceAt tree p (GTree.mk s none cs0), p :: p :: rest) =
        some (replaceAt tree p (GTree.mk s (some v) cs0), p :: rest) := by
      rw [step_score _ p (p :: rest) (GTree.mk s none cs0) _ v hn0 hno
        (by simpa using hcs0ne) hscores (by rw [hnegmap]; exact hvmax)]
      rw [replaceAt_replaceAt p tree _ _ _ hn]
    have hn1 : nodeAt (replaceAt tree p (GTree.mk s (some v) cs0)) p =
        some (GTree.mk s (some v) cs0) := nodeAt_replaceAt_self p tree _ _ hn
    have hstep3 : step (replaceAt tree p (GTree.mk s (some v) cs0), p :: rest) =
        some (replaceAt tree p (GTree.mk s (some v) cs0), rest) := by
      rw [step_score _ p rest (GTree.mk s (some v) cs0) _ v hn1 hno
        (by simpa using hcs0ne) hscores (by rw [hnegmap]; exact hvmax)]
      rw [replaceAt_replaceAt p tree _ _ _ hn]
    have htot3 : stepN (1 + k2 + 1) (tree, p :: rest) =
        some (replaceAt tree p (GTree.mk s (some v) cs0), p :: rest) := by
      rw [show 1 + k2 + 1 = 1 + (k2 + 1) by omega, stepN_add 1 (k2 + 1),
        stepN_one, hstep1, Option.some_bind, stepN_add k2 1, hk2,
        Option.some_bind, stepN_one, hstep2]
    have htot4 : stepN (1 + k2 + 1 + 1) (tree, p :: rest) =
        some (replaceAt tree p (GTree.mk s (some v) cs0), rest) := by
      rw [show 1 + k2 + 1 + 1 = (1 + k2 + 1) + 1 by omega,
        stepN_add (1 + k2 + 1) 1, htot3, Option.some_bind, stepN_one, hstep3]
    refine ⟨1 + k2 + 1 + 1, GTree.mk s (some v) cs0, rfl, by rw [hrv], htot4, ?_⟩
    intro i hi
    by_cases hi0 : i = 0
    · subst hi0
      refine ⟨GTree.mk s none [], [p], ?_, Or.inl rfl⟩
      have h0 := replaceAt_self p tree (GTree.mk s none []) hn
      simp [stepN, h0]
    · by_cases hi1 : i ≤ 1 + k2
      · obtain ⟨i', rfl⟩ : ∃ i', i = 1 + i' := ⟨i - 1, by omega⟩
        obtain ⟨csI, extra, hcsI⟩ := hint2 i' (by omega)
        refine ⟨GTree.mk s none csI, extra, ?_, Or.inl rfl⟩
        rw [stepN_add 1 i', stepN_one, hstep1, Option.some_bind]
        exact hcsI
      · by_cases hi2 : i = 1 + k2 + 1
        · subst hi2
          exact ⟨GTree.mk s (some v) cs0, [p], htot3, Or.inr (by rw [hrv])⟩
        · have hieq : i = 1 + k2 + 1 + 1 := by omega
          subst hieq
          exact ⟨GTree.mk s (some v) cs0, [], htot4, Or.inr (by rw [hrv])⟩

/-- With enough fuel the iterative helper terminates and returns exactly
the recursive helper's value. -/
theorem iter_helper_eq (g : State) (hwf : WFt g) :
    ∃ N, ∀ n, N ≤ n →
      iterative_helper_fuel n g = some (recursive_helper g) := by
  obtain ⟨k, sub, hg, hs, hfin, hint⟩ :=
    machine_processes g hwf (GTree.mk g none []) [] [] rfl
  refine ⟨k, fun n hn => ?_⟩
  show runMach n (GTree.mk g none [], [[]]) = some (recursive_helper g)
  apply runMach_of_steps k _ _ ?_ ?_ n hn
  · intro i hi
    obtain ⟨si, extra, hstepi, hsc⟩ := hint i hi
    exact ⟨(si, extra ++ []), by simpa using hstepi, by simpa using hsc⟩
  · exact ⟨(sub, []), by simpa using hfin, hs⟩

theorem uniform_fuel (f : String → State) :
    ∀ (l : List String), (∀ m ∈ l, WFt (f m)) →
      ∃ N, ∀ n, N ≤ n → ∀ m ∈ l,
        iterative_helper_fuel n (f m) = some (recursive_helper (f m)) := by
  intro l
  induction l with
  | nil => exact fun _ => ⟨0, fun n _ m hm => absurd hm (List.not_mem_nil m)⟩
  | cons x xs ih =>
    intro h
    obtain ⟨N1, h1⟩ := iter_helper_eq (f x) (h x (List.mem_cons_self x xs))
    obtain ⟨N2, h2⟩ := ih (fun m hm => h m (List.mem_cons_of_mem x hm))
    refine ⟨max N1 N2, fun n hn m hm => ?_⟩
    rcases List.mem_cons.mp hm with hm | hm
    · subst hm
      exact h1 n (le_trans (le_max_left _ _) hn)
    · exact h2 n (le_trans (le_max_right _ _) hn) m hm

/-! ## Claim C1: recursive and iterative minimax agree -/

/-- C1: for every reachable non-terminal state, there is a fuel bound
past which the iterative machine terminates with exactly the recursive
negamax value (`iterative_helper = recursive_helper`), and
`iterative_minimax` returns exactly the move `recursive_minimax`
returns (both select the first-encountered maximizer in
`get_possible_moves()` order), which exists. -/
theorem claim1_equivalence (s : State) (hr : Reachable s)
    (hno : is_over s = false) :
    ∃ N, ∀ n, N ≤ n →
      iterative_helper_fuel n s = some (recursive_helper s) ∧
      iterative_minimax_fuel n s = recursive_minimax s ∧
      ∃ mv, recursive_minimax s = some mv := by
  have hwf := reachable_wft hr
  have hne := inv_moves_ne s (reachable_inv hr) hno
  obtain ⟨N1, h1⟩ := iter_helper_eq s hwf
  obtain ⟨N2, h2⟩ := uniform_fuel (make_move s) s.possible_moves
    (fun m hm => reachable_wft (Reachable.step s m hr hm))
  refine ⟨max N1 N2, fun n hn => ⟨h1 n (le_trans (le_max_left _ _) hn), ?_, ?_⟩⟩
  · have hmapO : mapO (fun m => (iterative_helper_fuel n (make_move s m)).map
        (fun x => -x)) s.possible_moves =
        some (s.possible_moves.map (fun m => -recursive_helper (make_move s m))) := by
      apply mapO_some_of_forall
      intro m hm
      rw [h2 n (le_trans (le_max_right _ _) hn) m hm]
      rfl
    show (mapO _ (get_possible_moves s)).bind _ = recursive_minimax s
    rw [show get_possible_moves s = s.possible_moves from rfl, hmapO,
      Option.some_bind]
    rfl
  · have hmapne : s.possible_moves.map
        (fun m => -recursive_helper (make_move s m)) ≠ [] := by
      simpa using hne
    obtain ⟨v, hv⟩ := maxListO_of_ne_nil _ hmapne
    obtain ⟨i, hilt, hsel, -, -⟩ := selectByScores_spec s.possible_moves _ v
      (by rw [List.length_map]) hv
    refine ⟨s.possible_moves.get ⟨i, hilt⟩, ?_⟩
    show selectByScores (get_possible_moves s) _ = _
    rw [show get_possible_moves s = s.possible_moves from rfl, hsel,
      List.getElem?_eq_getElem hilt]
    rfl

/-- Witness for C1 at the initial board of length 1. -/
theorem claim1_equivalence_witness :
    ∃ N, ∀ n, N ≤ n →
      iterative_helper_fuel n (mkInit true 1) =
        some (recursive_helper (mkInit true 1)) ∧
      iterative_minimax_fuel n (mkInit true 1) =
        recursive_minimax (mkInit true 1) ∧
      ∃ mv, recursive_minimax (mkInit true 1) = some mv :=
  claim1_equivalence (mkInit true 1)
    (Reachable.init true 1 (by omega) (by omega)) (by decide)

theorem mem_range'_lower (s n m : Nat) (h : m ∈ List.range' s n) : s ≤ m := by
  obtain ⟨i, _, rfl⟩ := List.mem_range'.mp h
  omega

theorem change_letterH_frame (pt : Bool) (mv : String) :
    ∀ (rs : List Nat) (h : Heap) (p1 p2 : Nat) (i : Nat), i ∉ rs →
      (change_letterH pt mv h rs p1 p2).1[i]? = h[i]? := by
  intro rs
  induction rs with
  | nil => intro h p1 p2 i _; rfl
  | cons r rs ih =>
    intro h p1 p2 i hi
    have hir : i ≠ r := fun hc => hi (hc ▸ List.mem_cons_self r rs)
    simp only [change_letterH]
    split
    · exact List.getElem?_set_ne (fun hc => hir hc.symm)
    · exact ih h p1 p2 i (fun hc => hi (List.mem_cons_of_mem r hc))

theorem change_letterH_length (pt : Bool) (mv : String) :
    ∀ (rs : List Nat) (h : Heap) (p1 p2 : Nat),
      (change_letterH pt mv h rs p1 p2).1.length = h.length := by
  intro rs
  induction rs with
  | nil => intro h p1 p2; rfl
  | cons r rs ih =>
    intro h p1 p2
    simp only [change_letterH]
    split
    · exact List.length_set ..
    · exact ih h p1 p2

/-- C8 (frame property of `apply`): `make_moveH` leaves every
pre-existing heap cell unchanged — in particular the receiver's turn
flag, scores, move list (it is only read) and every one of its leylines
— and the returned state's leyline references are all fresh, so the new
state shares no leyline object with the receiver (whose references all
point into the old heap). -/
theorem claim8_frame_property (h : Heap) (st : HState) (mv : String)
    (hvalid : ∀ r ∈ st.h_refs ++ st.r_refs ++ st.l_refs, r < h.length) :
    (∀ i, i < h.length → (make_moveH h st mv).1[i]? = h[i]?) ∧
    (∀ r ∈ (make_moveH h st mv).2.h_refs ++ (make_moveH h st mv).2.r_refs ++
        (make_moveH h st mv).2.l_refs, h.length ≤ r) ∧
    (∀ r ∈ (make_moveH h st mv).2.h_refs ++ (make_moveH h st mv).2.r_refs ++
        (make_moveH h st mv).2.l_refs,
      r ∉ st.h_refs ++ st.r_refs ++ st.l_refs) := by
  have hlen1 : (allocCopies h st.h_refs).1.length = h.length + st.h_refs.length := by
    simp [allocCopies]
  have hlen2 : (allocCopies (allocCopies h st.h_refs).1 st.l_refs).1.length =
      h.length + st.h_refs.length + st.l_refs.length := by
    simp [allocCopies, hlen1]
    omega
  have hfresh : ∀ r ∈ (make_moveH h st mv).2.h_refs ++ (make_moveH h st mv).2.r_refs ++
      (make_moveH h st mv).2.l_refs, h.length ≤ r := by
    intro r hr
    rcases List.mem_append.mp hr with hr | hr
    · rcases List.mem_append.mp hr with hr | hr
      · exact mem_range'_lower _ _ _ hr
      · have := mem_range'_lower _ _ _ hr
        rw [hlen2] at this
        omega
    · have := mem_range'_lower _ _ _ hr
      rw [hlen1] at this
      omega
  refine ⟨?_, hfresh, ?_⟩
  · intro i hi
    have hnot1 : i ∉ (allocCopies h st.h_refs).2 := by
      intro hc
      have := mem_range'_lower _ _ _ hc
      omega
    have hnot2 : i ∉ (allocCopies (allocCopies h st.h_refs).1 st.l_refs).2 := by
      intro hc
      have := mem_range'_lower _ _ _ hc
      rw [hlen1] at this
      omega
    have hnot3 : i ∉ (allocCopies (allocCopies (allocCopies h st.h_refs).1
        st.l_refs).1 st.r_refs).2 := by
      intro hc
      have := mem_range'_lower _ _ _ hc
      rw [hlen2] at this
      omega
    show (change_letterH _ mv (change_letterH _ mv (change_letterH _ mv _ _ _ _).1
      _ _ _).1 _ _ _).1[i]? = h[i]?
    rw [change_letterH_frame _ _ _ _ _ _ i hnot2,
      change_letterH_frame _ _ _ _ _ _ i hnot3,
      change_letterH_frame _ _ _ _ _ _ i hnot1]
    show ((allocCopies (allocCopies (allocCopies h st.h_refs).1 st.l_refs).1
      st.r_refs).1)[i]? = h[i]?
    simp only [allocCopies]
    rw [List.getElem?_append_left (by simp [hlen2]; omega),
      List.getElem?_append_left (by simp [hlen1]; omega),
      List.getElem?_append_left hi]
  · intro r hr hold
    exact absurd (hvalid r hold) (by have := hfresh r hr; omega)

/-- Witness for C8 at the freshly built board of length 1 and the
move `'A'`. -/
theorem claim8_frame_property_witness :
    (∀ i, i < (mkInitH true 1).1.length →
      (make_moveH (mkInitH true 1).1 (mkInitH true 1).2 "A").1[i]? =
        (mkInitH true 1).1[i]?) ∧
    (∀ r ∈ (make_moveH (mkInitH true 1).1 (mkInitH true 1).2 "A").2.h_refs ++
        (make_moveH (mkInitH true 1).1 (mkInitH true 1).2 "A").2.r_refs ++
        (make_moveH (mkInitH true 1).1 (mkInitH true 1).2 "A").2.l_refs,
      (mkInitH true 1).1.length ≤ r) ∧
    (∀ r ∈ (make_moveH (mkInitH true 1).1 (mkInitH true 1).2 "A").2.h_refs ++
        (make_moveH (mkInitH true 1).1 (mkInitH true 1).2 "A").2.r_refs ++
        (make_moveH (mkInitH true 1).1 (mkInitH true 1).2 "A").2.l_refs,
      r ∉ (mkInitH true 1).2.h_refs ++ (mkInitH true 1).2.r_refs ++
        (mkInitH true 1).2.l_refs) :=
  claim8_frame_property (mkInitH true 1).1 (mkInitH true 1).2 "A" (by decide)

end Stonehenge

